import Mathlib

set_option maxRecDepth 8192
set_option linter.unusedVariables false
set_option linter.unnecessarySimpa false
set_option linter.unnecessarySeqFocus false
set_option linter.unreachableTactic false
set_option linter.unusedTactic false

/-!
Verification of `crates/sui-types/src/sui_serde.rs`.

The serde framework is shallowly embedded: a serialized value is a node of the
serde data model (`Value`), a serializer is represented by its only observable
property used in this file, the human-readable mode flag (a `Bool`), and a
serialization strategy for a type `T` (the `SerializeAs`/`DeserializeAs`
implementations of serde_with) is a pure function from the value and the mode
flag to an `Except String Value` (respectively from a `Value` and the mode flag
back to `Except String T`).  Machine integers are `Nat` with explicit bounds.
-/

/-- A node of the serde data model, restricted to the shapes produced by the
strategies of `sui_serde.rs`: strings, native 64-bit integers and byte
buffers. -/
inductive Value where
  | vStr : String → Value
  | vU64 : Nat → Value
  | vBytes : List Nat → Value
deriving DecidableEq

deriving instance DecidableEq for Except

/-- `String::serialize` / `s.serialize(serializer)`: a Rust string serializes
as a string node in every mode. -/
def serializeStr (s : String) (hr : Bool) : Except String Value :=
  .ok (.vStr s)

/-- `String::deserialize`: reads a string node, fails on any other shape. -/
def deserializeStr (v : Value) (hr : Bool) : Except String String :=
  match v with
  | .vStr s => .ok s
  | _ => .error "invalid type: expected a string"

/-- serde's native strategy for `u64` (the `_` strategy in
`Readable<BigInt<u64>, _>`): the destination's native binary number
encoding. -/
def U64.serializeAs (v : Nat) (hr : Bool) : Except String Value :=
  .ok (.vU64 v)

/-- serde's native deserialization for `u64`. -/
def U64.deserializeAs (v : Value) (hr : Bool) : Except String Nat :=
  match v with
  | .vU64 n => .ok n
  | _ => .error "invalid type: expected u64"

/-- `serde_with::Bytes::serialize_as`: a byte buffer serializes as a bytes
node in every mode. -/
def Bytes.serializeAs (bs : List Nat) (hr : Bool) : Except String Value :=
  .ok (.vBytes bs)

/-- `serde_with::Bytes::deserialize_as`: reads a bytes node. -/
def Bytes.deserializeAs (v : Value) (hr : Bool) : Except String (List Nat) :=
  match v with
  | .vBytes bs => .ok bs
  | _ => .error "invalid type: expected bytes"

/-- `to_custom_error::<'de, D, E>` (line 27): wraps a debug-formattable decode
error into the deserializer's custom error.  The `Debug` formatting of the
underlying error is abstracted as a function `debugFmt` into strings; the
message text is the exact format string of the source. -/
def toCustomError {E : Type} (debugFmt : E → String) (e : E) : String :=
  "byte deserialization failed, cause by: " ++ debugFmt e

/-- `to_custom_ser_error::<S, E>` (line 36): same wrapping for the encode
side. -/
def toCustomSerError {E : Type} (debugFmt : E → String) (e : E) : String :=
  "byte serialization failed, cause by: " ++ debugFmt e

/-! ## Decimal rendering and parsing of `u64`

`<u64 as Display>::fmt` renders the decimal digits; `<u64 as FromStr>::from_str`
accepts an optional leading `+` followed by one or more decimal digits and
fails on overflow past `2^64 - 1`. -/

/-- Little-endian decimal digits of `n`, with explicit structural fuel so the
definition reduces in the kernel.  `toDecDigits` below instantiates the fuel
with `n` itself, which is always sufficient. -/
def toDecDigitsFuel : Nat → Nat → List Nat
  | 0, _ => []
  | fuel + 1, n => if n = 0 then [] else n % 10 :: toDecDigitsFuel fuel (n / 10)

/-- Little-endian decimal digits of `n` (empty for `0`). -/
def toDecDigits (n : Nat) : List Nat :=
  toDecDigitsFuel n n

/-- The ASCII character of a decimal digit. -/
def digitChar (d : Nat) : Char :=
  Char.ofNat (48 + d)

/-- `<u64 as Display>::to_string`: the base-10 rendering of the value. -/
def u64ToString (n : Nat) : String :=
  if n = 0 then "0" else String.mk ((toDecDigits n).reverse.map digitChar)

/-- The numeric value of an ASCII decimal digit character, `none` for
non-digits. -/
def charToDigit (c : Char) : Option Nat :=
  if 48 ≤ c.toNat ∧ c.toNat ≤ 57 then some (c.toNat - 48) else none

/-- Converts a character list to its digit values; fails if any character is
not a decimal digit. -/
def digitsOfChars : List Char → Option (List Nat)
  | [] => some []
  | c :: cs =>
    match charToDigit c, digitsOfChars cs with
    | some d, some ds => some (d :: ds)
    | _, _ => none

/-- The accumulation loop of integer `from_str`: most-significant digit
first. -/
def decDigitsToNat (ds : List Nat) : Nat :=
  ds.foldl (fun acc d => acc * 10 + d) 0

/-- The digit-consuming part of integer `from_str`: one or more decimal
digits, rejecting values outside the `u64` range. -/
def u64FromChars (cs : List Char) : Option Nat :=
  if cs = [] then none
  else
    match digitsOfChars cs with
    | some ds => if decDigitsToNat ds < 2 ^ 64 then some (decDigitsToNat ds) else none
    | none => none

/-- `<u64 as FromStr>::from_str`: optional leading `+`, then one or more
decimal digits, rejecting values outside the `u64` range. -/
def u64FromStr (s : String) : Option Nat :=
  u64FromChars (if s.data.head? = some '+' then s.data.tail else s.data)

/-- `serde_with::DisplayFromStr::serialize_as` at `u64`: the `to_string`
rendering serialized as a string, in every mode. -/
def DisplayFromStr.serializeAs (v : Nat) (hr : Bool) : Except String Value :=
  serializeStr (u64ToString v) hr

/-- `serde_with::DisplayFromStr::deserialize_as` at `u64`: reads a string and
parses it with `from_str`. -/
def DisplayFromStr.deserializeAs (v : Value) (hr : Bool) : Except String Nat :=
  match deserializeStr v hr with
  | .error e => .error e
  | .ok s =>
    match u64FromStr s with
    | some n => .ok n
    | none => .error "invalid digit found in string"

/-! ## The `Readable` dispatcher (lines 58–95) -/

/-- `Readable::<H, R>::serialize_as` (line 68): queries
`serializer.is_human_readable()` and delegates to `H` or `R`. -/
def Readable.serializeAs {T : Type} (H R : T → Bool → Except String Value)
    (v : T) (hr : Bool) : Except String Value :=
  if hr then H v hr else R v hr

/-- `Readable::<H, R>::deserialize_as` (line 85): queries
`deserializer.is_human_readable()` and delegates to `H` or `R`. -/
def Readable.deserializeAs {T : Type} (H R : Value → Bool → Except String T)
    (v : Value) (hr : Bool) : Except String T :=
  if hr then H v hr else R v hr

/-- The dispatch of `Readable::serialize_as` instrumented to also report which
strategy the branch on `is_human_readable` selected (`true` for `H`, `false`
for `R`).  The first component is exactly the source's behaviour. -/
def Readable.serializeAsTraced {T : Type} (H R : T → Bool → Except String Value)
    (v : T) (hr : Bool) : Except String Value × Bool :=
  if hr then (H v hr, true) else (R v hr, false)

/-- The dispatch of `Readable::deserialize_as` instrumented with the selected
strategy. -/
def Readable.deserializeAsTraced {T : Type} (H R : Value → Bool → Except String T)
    (v : Value) (hr : Bool) : Except String T × Bool :=
  if hr then (H v hr, true) else (R v hr, false)

/-! ## The `BigInt<T>` wrapper (lines 231–298), at `T = u64` -/

/-- `BigInt::<T>::serialize_as` (line 247): `BigInt(*value).serialize(s)`,
where the derived `Serialize` of the newtype forwards its single field through
the `#[serde_as(as = "DisplayFromStr")]` annotation — in every mode. -/
def BigInt.serializeAs (v : Nat) (hr : Bool) : Except String Value :=
  DisplayFromStr.serializeAs v hr

/-- `BigInt::<T>::deserialize_as` (line 260): the derived `Deserialize` of the
newtype reads the field through `DisplayFromStr`, then the wrapper is deref'd
away. -/
def BigInt.deserializeAs (v : Value) (hr : Bool) : Except String Nat :=
  DisplayFromStr.deserializeAs v hr

/-! ## Structural schema hints (schemars) -/

/-- The `instance_type` of a generated structural schema. -/
inductive InstanceType where
  | string
  | number
  | integer
  | boolean
  | array
  | object
deriving DecidableEq

/-- The schemars schema instance type of Rust's `String`. -/
def stringSchemaInstanceType : InstanceType :=
  .string

/-- The schemars schema instance type of Rust's `u64`. -/
def u64SchemaInstanceType : InstanceType :=
  .integer

/-- The schema instance type generated for the field of `BigInt<T>`: the
`#[schemars(with = "String")]` attribute (line 234) replaces the field's own
schema with the schema of `String`. -/
def BigInt.schemaInstanceType : InstanceType :=
  stringSchemaInstanceType

/-! ## `SequenceNumber` and `AsProtocolVersion` adapters (lines 304–349) -/

/-- `SequenceNumber::serialize_as` (line 305): `value.value().to_string()`
serialized as a string, with no mode query.  The wrapped domain type is its
`u64` value. -/
def SequenceNumber.serializeAs (v : Nat) (hr : Bool) : Except String Value :=
  serializeStr (u64ToString v) hr

/-- `SequenceNumber::deserialize_as` (line 318): `BigInt::deserialize` then
`SequenceNumber::from_u64(*b)`. -/
def SequenceNumber.deserializeAs (v : Value) (hr : Bool) : Except String Nat :=
  BigInt.deserializeAs v hr

/-- `AsProtocolVersion::serialize_as` (line 333): `value.as_u64().to_string()`
serialized as a string, with no mode query. -/
def AsProtocolVersion.serializeAs (v : Nat) (hr : Bool) : Except String Value :=
  serializeStr (u64ToString v) hr

/-- `AsProtocolVersion::deserialize_as` (line 343): `BigInt::<u64>::deserialize`
then `ProtocolVersion::from(*b)`. -/
def AsProtocolVersion.deserializeAs (v : Value) (hr : Bool) : Except String Nat :=
  BigInt.deserializeAs v hr

/-! ## Substring search used to state the error-message claims -/

/-- `pat` occurs as a contiguous run inside the second list. -/
def listHasSub (pat : List Char) : List Char → Bool
  | [] => pat.isEmpty
  | c :: rest => pat.isPrefixOf (c :: rest) || listHasSub pat rest

/-! ## `HexAccountAddress` (lines 98–122) -/

/-- The numeric value of a hexadecimal digit character, `none` for non-hex
characters. -/
def hexCharToNat (c : Char) : Option Nat :=
  if 48 ≤ c.toNat ∧ c.toNat ≤ 57 then some (c.toNat - 48)
  else if 97 ≤ c.toNat ∧ c.toNat ≤ 102 then some (c.toNat - 87)
  else if 65 ≤ c.toNat ∧ c.toNat ≤ 70 then some (c.toNat - 55)
  else none

/-- Hex decoding of a character list into bytes: fails on odd length or on any
non-hex character. -/
def hexPairsToBytes : List Char → Option (List Nat)
  | [] => some []
  | [_] => none
  | c1 :: c2 :: rest =>
    match hexCharToNat c1, hexCharToNat c2, hexPairsToBytes rest with
    | some hi, some lo, some bs => some ((16 * hi + lo) :: bs)
    | _, _, _ => none

/-- Modelled from the spec: `AccountAddress::from_hex` of move-core-types is
not under `src/`; per the spec's hex-address rules it parses a plain hex
string (no `0x`) into the fixed-length 32-byte address, accepting shorter
strings by padding on the left with zero bytes (so `"00"` decodes to the zero
address), and fails if the text is not valid hex of the expected length. -/
def AccountAddress.fromHex (cs : List Char) : Except String (List Nat) :=
  match hexPairsToBytes cs with
  | none => .error "invalid hex character or odd hex length"
  | some bs =>
    if bs.length ≤ 32 then .ok (List.replicate (32 - bs.length) 0 ++ bs)
    else .error "hex string exceeds the address length"

/-- Modelled from the spec: `AccountAddress::from_hex_literal` — require the
`0x` prefix and parse the remainder as (possibly short) hex. -/
def AccountAddress.fromHexLiteral (cs : List Char) : Except String (List Nat) :=
  match cs with
  | '0' :: 'x' :: rest => AccountAddress.fromHex rest
  | _ => .error "hex literal must start with 0x"

/-- The all-zero 32-byte account address. -/
def zeroAddress : List Nat := List.replicate 32 0

/-- `HexAccountAddress::deserialize_as` (line 110): `String::deserialize`,
then `from_hex_literal` when the string starts with `0x` and `from_hex`
otherwise, with the conversion error mapped through `to_custom_error`. -/
def HexAccountAddress.deserializeAs (v : Value) (hr : Bool) : Except String (List Nat) :=
  match deserializeStr v hr with
  | .error e => .error e
  | .ok s =>
    match (if s.data.take 2 = ['0', 'x'] then AccountAddress.fromHexLiteral s.data
           else AccountAddress.fromHex s.data) with
    | .ok a => .ok a
    | .error e => .error (toCustomError (fun x => x) e)

/-- The hex-digit portion of an input string: the characters after the `0x`
marker when present, the whole string otherwise. -/
def hexPart (cs : List Char) : List Char :=
  if cs.take 2 = ['0', 'x'] then cs.drop 2 else cs

/-! ## `SuiBitmap` (lines 124–150): the roaring on-disk codec

`roaring::RoaringBitmap::serialize_into` / `deserialize_from` are an external
crate, declared by the spec to follow the published RoaringFormatSpec
byte-for-byte.  They are modelled here from that standard, in its
no-run-container flavour (the only one `serialize_into` emits for bitmaps that
were never run-optimized): a 32-bit little-endian cookie `12346`, the 32-bit
container count, a descriptive header of `(key, cardinality - 1)` 16-bit
pairs, a 32-bit offset header, then the containers — sorted 16-bit arrays for
cardinality at most 4096 and 8192-byte bitsets above. -/

/-- Little-endian byte encoding of a 16-bit value. -/
def u16leBytes (n : Nat) : List Nat :=
  [n % 256, n / 256 % 256]

/-- Little-endian byte encoding of a 32-bit value. -/
def u32leBytes (n : Nat) : List Nat :=
  [n % 256, n / 256 % 256, n / 65536 % 256, n / 16777216 % 256]

/-- Reads a little-endian 16-bit value. -/
def readU16le : List Nat → Option (Nat × List Nat)
  | b0 :: b1 :: rest => some (b0 + 256 * b1, rest)
  | _ => none

/-- Reads a little-endian 32-bit value. -/
def readU32le : List Nat → Option (Nat × List Nat)
  | b0 :: b1 :: b2 :: b3 :: rest => some (b0 + 256 * b1 + 65536 * b2 + 16777216 * b3, rest)
  | _ => none

/-- Serializes a list of 16-bit values back to back. -/
def u16ListBytes : List Nat → List Nat
  | [] => []
  | v :: vs => u16leBytes v ++ u16ListBytes vs

/-- Serializes a list of 32-bit values back to back. -/
def u32ListBytes : List Nat → List Nat
  | [] => []
  | v :: vs => u32leBytes v ++ u32ListBytes vs

/-- Reads `cnt` little-endian 16-bit values. -/
def readU16List : Nat → List Nat → Option (List Nat × List Nat)
  | 0, bs => some ([], bs)
  | cnt + 1, bs =>
    match readU16le bs with
    | none => none
    | some (v, bs1) =>
      match readU16List cnt bs1 with
      | none => none
      | some (vs, bs2) => some (v :: vs, bs2)

/-- Reads `cnt` little-endian 32-bit values. -/
def readU32List : Nat → List Nat → Option (List Nat × List Nat)
  | 0, bs => some ([], bs)
  | cnt + 1, bs =>
    match readU32le bs with
    | none => none
    | some (v, bs1) =>
      match readU32List cnt bs1 with
      | none => none
      | some (vs, bs2) => some (v :: vs, bs2)

/-- Reads exactly `cnt` raw bytes. -/
def readBytesN : Nat → List Nat → Option (List Nat × List Nat)
  | 0, bs => some ([], bs)
  | _ + 1, [] => none
  | cnt + 1, b :: bs =>
    match readBytesN cnt bs with
    | none => none
    | some (taken, rest) => some (b :: taken, rest)

/-- A roaring bitmap, as the crate represents it: containers indexed by the
16-bit high half of the 32-bit members, each holding the sorted 16-bit low
halves present under that key. -/
structure RoaringBitmap where
  containers : List (Nat × List Nat)
deriving DecidableEq

/-- Strict ascending order of a value list. -/
def isStrictSorted : List Nat → Bool
  | [] => true
  | [_] => true
  | a :: b :: rest => decide (a < b) && isStrictSorted (b :: rest)

/-- The representation invariant the roaring crate maintains: keys strictly
increasing 16-bit values, every container nonempty with strictly increasing
16-bit members. -/
def RoaringBitmap.WF (b : RoaringBitmap) : Prop :=
  isStrictSorted (b.containers.map Prod.fst) = true ∧
  ∀ kc ∈ b.containers, kc.1 < 65536 ∧ kc.2 ≠ [] ∧ isStrictSorted kc.2 = true ∧
    ∀ v ∈ kc.2, v < 65536

instance (b : RoaringBitmap) : Decidable b.WF := by
  unfold RoaringBitmap.WF
  infer_instance

/-- A byte assembled from its eight bits, least significant first. -/
def byteOfBits (b0 b1 b2 b3 b4 b5 b6 b7 : Bool) : Nat :=
  b0.toNat + 2 * b1.toNat + 4 * b2.toNat + 8 * b3.toNat + 16 * b4.toNat +
    32 * b5.toNat + 64 * b6.toNat + 128 * b7.toNat

/-- Byte `j` of a bitset container: bit `k` is set when `8 * j + k` is a
member. -/
def bitsetByte (vals : List Nat) (j : Nat) : Nat :=
  byteOfBits (decide (8 * j ∈ vals)) (decide (8 * j + 1 ∈ vals))
    (decide (8 * j + 2 ∈ vals)) (decide (8 * j + 3 ∈ vals))
    (decide (8 * j + 4 ∈ vals)) (decide (8 * j + 5 ∈ vals))
    (decide (8 * j + 6 ∈ vals)) (decide (8 * j + 7 ∈ vals))

/-- The 8192-byte bitset container encoding of a value list. -/
def bitsetBytes (vals : List Nat) : List Nat :=
  (List.range 8192).map (bitsetByte vals)

/-- Decodes an 8192-byte bitset container back to its sorted member list. -/
def bitsetDecode (chunk : List Nat) : List Nat :=
  (List.range 65536).filter (fun v => Nat.testBit (chunk.getD (v / 8) 0) (v % 8))

/-- On-disk size of a container of the given cardinality. -/
def containerSizeBytes (card : Nat) : Nat :=
  if card ≤ 4096 then 2 * card else 8192

/-- On-disk bytes of one container: a sorted 16-bit array up to cardinality
4096, a bitset beyond. -/
def containerBytes (vals : List Nat) : List Nat :=
  if vals.length ≤ 4096 then u16ListBytes vals else bitsetBytes vals

/-- The descriptive header: a `(key, cardinality - 1)` pair of 16-bit values
per container. -/
def headerPairBytes : List (Nat × Nat) → List Nat
  | [] => []
  | (k, card) :: ps => u16leBytes k ++ u16leBytes (card - 1) ++ headerPairBytes ps

/-- The `(key, cardinality)` header pairs of a container list. -/
def headerPairsOf (cs : List (Nat × List Nat)) : List (Nat × Nat) :=
  cs.map (fun kc => (kc.1, kc.2.length))

/-- The descriptive header bytes of a container list. -/
def descriptiveHeaderBytes (cs : List (Nat × List Nat)) : List Nat :=
  headerPairBytes (headerPairsOf cs)

/-- Byte offsets, from the beginning of the stream, at which the successive
containers start. -/
def offsetsOfCards (start : Nat) : List Nat → List Nat
  | [] => []
  | c :: cs => start :: offsetsOfCards (start + containerSizeBytes c) cs

/-- The concatenated container bodies. -/
def containersBytes : List (Nat × List Nat) → List Nat
  | [] => []
  | (_, vs) :: rest => containerBytes vs ++ containersBytes rest

/-- Modelled from the spec: `roaring::RoaringBitmap::serialize_into` (external
crate, not under `src/`) per the RoaringFormatSpec, no-run-container
flavour. -/
def serializeInto (b : RoaringBitmap) : List Nat :=
  u32leBytes 12346 ++ u32leBytes b.containers.length ++
    descriptiveHeaderBytes b.containers ++
    u32ListBytes (offsetsOfCards (8 + 8 * b.containers.length)
      (b.containers.map (fun kc => kc.2.length))) ++
    containersBytes b.containers

/-- Reads `cnt` descriptive-header pairs, restoring the stored
`cardinality - 1` to the cardinality. -/
def readHeaderPairs : Nat → List Nat → Option (List (Nat × Nat) × List Nat)
  | 0, bs => some ([], bs)
  | cnt + 1, bs =>
    match readU16le bs with
    | none => none
    | some (k, bs1) =>
      match readU16le bs1 with
      | none => none
      | some (cm1, bs2) =>
        match readHeaderPairs cnt bs2 with
        | none => none
        | some (ps, bs3) => some ((k, cm1 + 1) :: ps, bs3)

/-- Reads one container of the given cardinality, validating sortedness of an
array container and the advertised cardinality of a bitset container. -/
def readContainer (card : Nat) (bs : List Nat) : Option (List Nat × List Nat) :=
  if card ≤ 4096 then
    match readU16List card bs with
    | none => none
    | some (vals, rest) => if isStrictSorted vals then some (vals, rest) else none
  else
    match readBytesN 8192 bs with
    | none => none
    | some (chunk, rest) =>
      if (bitsetDecode chunk).length = card then some (bitsetDecode chunk, rest) else none

/-- Reads the container bodies described by the header pairs. -/
def readContainerList : List (Nat × Nat) → List Nat → Option (List (Nat × List Nat) × List Nat)
  | [], bs => some ([], bs)
  | (k, card) :: ps, bs =>
    match readContainer card bs with
    | none => none
    | some (vals, bs1) =>
      match readContainerList ps bs1 with
      | none => none
      | some (cs, bs2) => some ((k, vals) :: cs, bs2)

/-- Modelled from the spec: `roaring::RoaringBitmap::deserialize_from`
(external crate, not under `src/`) per the RoaringFormatSpec — a validating
decoder that fails on any byte sequence that is not a valid encoding of the
standard: wrong cookie, malformed or unsorted headers or containers, offsets
inconsistent with the container sizes, or trailing bytes. -/
def deserializeFrom (bs : List Nat) : Option RoaringBitmap :=
  match readU32le bs with
  | none => none
  | some (cookie, bs1) =>
    if cookie = 12346 then
      match readU32le bs1 with
      | none => none
      | some (n, bs2) =>
        match readHeaderPairs n bs2 with
        | none => none
        | some (pairs, bs3) =>
          if isStrictSorted (pairs.map Prod.fst) then
            match readU32List n bs3 with
            | none => none
            | some (offs, bs4) =>
              if offs = offsetsOfCards (8 + 8 * n) (pairs.map Prod.snd) then
                match readContainerList pairs bs4 with
                | none => none
                | some (cs, bs5) => if bs5 = [] then some ⟨cs⟩ else none
              else none
          else none
    else none

/-- `SuiBitmap::serialize_as` (line 129): `serialize_into` to a byte vector
(which cannot fail for an in-memory writer), then `Bytes::serialize_as`. -/
def SuiBitmap.serializeAs (b : RoaringBitmap) (hr : Bool) : Except String Value :=
  Bytes.serializeAs (serializeInto b) hr

/-- `SuiBitmap::deserialize_as` (line 143): `Bytes::deserialize_as`, then
`RoaringBitmap::deserialize_from` with the error mapped through
`to_custom_error`. -/
def SuiBitmap.deserializeAs (v : Value) (hr : Bool) : Except String RoaringBitmap :=
  match Bytes.deserializeAs v hr with
  | .error e => .error e
  | .ok bs =>
    match deserializeFrom bs with
    | some b => .ok b
    | none => .error (toCustomError (fun x => x) "not a valid roaring bitmap encoding")

/-! ## `SuiStructTag` / `SuiTypeTag` (lines 187–229)

The `StructTag`/`TypeTag` values live in move-core-types and the
`parse_sui_struct_tag` / `parse_sui_type_tag` grammar parsers in the sui-types
crate root — none of it under `src/`.  They are modelled from the spec: a
structured type identifier with a canonical stringification
(`0x<short-hex-address>::module::name`, generic arguments in `<...>` separated
by `", "`, primitive types and `vector<...>` by keyword), and a grammar-driven
recursive-descent parser that inverts it and rejects anything else, in
particular strings with unbalanced generic-type brackets. -/

mutual
inductive TypeTag where
  | bool : TypeTag
  | u8 : TypeTag
  | u16 : TypeTag
  | u32 : TypeTag
  | u64 : TypeTag
  | u128 : TypeTag
  | u256 : TypeTag
  | address : TypeTag
  | signer : TypeTag
  | vector : TypeTag → TypeTag
  | struct : StructTag → TypeTag
inductive StructTag where
  | mk : List Nat → List Char → List Char → TypeTagList → StructTag
inductive TypeTagList where
  | nil : TypeTagList
  | cons : TypeTag → TypeTagList → TypeTagList
end

deriving instance DecidableEq for TypeTag
deriving instance DecidableEq for StructTag
deriving instance DecidableEq for TypeTagList

/-- The lowercase hex digit character of a nibble. -/
def hexDigitChar (d : Nat) : Char :=
  if d < 10 then Char.ofNat (48 + d) else Char.ofNat (87 + d)

/-- The nibbles of a byte string, most significant first within each byte. -/
def bytesToNibbles : List Nat → List Nat
  | [] => []
  | b :: bs => b / 16 :: b % 16 :: bytesToNibbles bs

/-- Pairs a nibble list back into bytes. -/
def nibblePairs : List Nat → List Nat
  | [] => []
  | [n] => [n]
  | a :: b :: rest => (16 * a + b) :: nibblePairs rest

/-- The short hex form of a 32-byte address: leading zero nibbles trimmed,
`"0"` for the all-zero address. -/
def shortHexChars (addr : List Nat) : List Char :=
  let nibs := (bytesToNibbles addr).dropWhile (fun d => d = 0)
  if nibs = [] then ['0'] else nibs.map hexDigitChar

/-- Parses the (already hex-digit) characters of an address literal, padding
the short form back to the 32-byte width; fails on an empty or over-long
digit run. -/
def parseAddr (hexs : List Char) : Option (List Nat) :=
  if hexs = [] ∨ 64 < hexs.length then none
  else
    let nibs := hexs.map (fun c => (hexCharToNat c).getD 0)
    some (nibblePairs (List.replicate (64 - nibs.length) 0 ++ nibs))

mutual
def printTypeTag : TypeTag → List Char
  | .bool => "bool".data
  | .u8 => "u8".data
  | .u16 => "u16".data
  | .u32 => "u32".data
  | .u64 => "u64".data
  | .u128 => "u128".data
  | .u256 => "u256".data
  | .address => "address".data
  | .signer => "signer".data
  | .vector t => "vector<".data ++ printTypeTag t ++ ">".data
  | .struct s => printStructTag s
def printStructTag : StructTag → List Char
  | .mk addr m n args =>
    "0x".data ++ shortHexChars addr ++ "::".data ++ m ++ "::".data ++ n ++ printTypeArgs args
def printTypeArgs : TypeTagList → List Char
  | .nil => []
  | .cons t ts => "<".data ++ printTypeTag t ++ printTypeArgsRest ts ++ ">".data
def printTypeArgsRest : TypeTagList → List Char
  | .nil => []
  | .cons t ts => ", ".data ++ printTypeTag t ++ printTypeArgsRest ts
end

/-- Identifier head characters: letters and underscore. -/
def isIdentStart (c : Char) : Bool :=
  (97 ≤ c.toNat && c.toNat ≤ 122) || (65 ≤ c.toNat && c.toNat ≤ 90) || c = '_'

/-- Identifier continuation characters: letters, digits, underscore. -/
def isIdentChar (c : Char) : Bool :=
  isIdentStart c || (48 ≤ c.toNat && c.toNat ≤ 57)

/-- Takes the maximal identifier-character run. -/
def spanIdent : List Char → List Char × List Char
  | [] => ([], [])
  | c :: cs =>
    if isIdentChar c then
      let p := spanIdent cs
      (c :: p.1, p.2)
    else ([], c :: cs)

/-- Hex-digit test. -/
def isHexDigit (c : Char) : Bool :=
  (hexCharToNat c).isSome

/-- Takes the maximal hex-digit run. -/
def spanHex : List Char → List Char × List Char
  | [] => ([], [])
  | c :: cs =>
    if isHexDigit c then
      let p := spanHex cs
      (c :: p.1, p.2)
    else ([], c :: cs)

/-- A well-formed identifier: nonempty, head a letter or underscore, all
characters identifier characters. -/
def identWFB (l : List Char) : Bool :=
  match l with
  | [] => false
  | c :: _ => isIdentStart c && l.all isIdentChar

/-- A well-formed 32-byte address. -/
def addrWFB (addr : List Nat) : Bool :=
  decide (addr.length = 32) && addr.all (fun b => decide (b < 256))

mutual
def TypeTagWF : TypeTag → Bool
  | .vector t => TypeTagWF t
  | .struct s => StructTagWF s
  | _ => true
def StructTagWF : StructTag → Bool
  | .mk addr m n args => addrWFB addr && identWFB m && identWFB n && TypeTagListWF args
def TypeTagListWF : TypeTagList → Bool
  | .nil => true
  | .cons t ts => TypeTagWF t && TypeTagListWF ts
end

mutual
def tagSize : TypeTag → Nat
  | .vector t => 1 + tagSize t
  | .struct s => 1 + structSize s
  | _ => 1
def structSize : StructTag → Nat
  | .mk _ _ _ args => 1 + argsSize args
def argsSize : TypeTagList → Nat
  | .nil => 1
  | .cons t ts => 1 + tagSize t + argsSize ts
end

mutual
def parseTypeTag : Nat → List Char → Option (TypeTag × List Char)
  | 0, _ => none
  | fuel + 1, cs =>
    if cs.take 2 = ['0', 'x'] then
      match parseStructTag fuel cs with
      | none => none
      | some (s, rest) => some (.struct s, rest)
    else
      let p := spanIdent cs
      if p.1 = "bool".data then some (.bool, p.2)
      else if p.1 = "u8".data then some (.u8, p.2)
      else if p.1 = "u16".data then some (.u16, p.2)
      else if p.1 = "u32".data then some (.u32, p.2)
      else if p.1 = "u64".data then some (.u64, p.2)
      else if p.1 = "u128".data then some (.u128, p.2)
      else if p.1 = "u256".data then some (.u256, p.2)
      else if p.1 = "address".data then some (.address, p.2)
      else if p.1 = "signer".data then some (.signer, p.2)
      else if p.1 = "vector".data then
        match p.2 with
        | '<' :: rest1 =>
          match parseTypeTag fuel rest1 with
          | none => none
          | some (t, rest2) =>
            match rest2 with
            | '>' :: rest3 => some (.vector t, rest3)
            | _ => none
        | _ => none
      else none
def parseStructTag : Nat → List Char → Option (StructTag × List Char)
  | 0, _ => none
  | fuel + 1, cs =>
    match cs with
    | '0' :: 'x' :: rest =>
      let ph := spanHex rest
      match parseAddr ph.1 with
      | none => none
      | some addr =>
        match ph.2 with
        | ':' :: ':' :: rest2 =>
          let pm := spanIdent rest2
          if identWFB pm.1 then
            match pm.2 with
            | ':' :: ':' :: rest4 =>
              let pn := spanIdent rest4
              if identWFB pn.1 then
                if pn.2.head? = some '<' then
                  match parseTypeArgs fuel pn.2.tail with
                  | none => none
                  | some (args, rest7) => some (.mk addr pm.1 pn.1 args, rest7)
                else some (.mk addr pm.1 pn.1 .nil, pn.2)
              else none
            | _ => none
          else none
        | _ => none
    | _ => none
def parseTypeArgs : Nat → List Char → Option (TypeTagList × List Char)
  | 0, _ => none
  | fuel + 1, cs =>
    match parseTypeTag fuel cs with
    | none => none
    | some (t, rest) =>
      match parseTypeArgsRest fuel rest with
      | none => none
      | some (ts, rest2) => some (.cons t ts, rest2)
def parseTypeArgsRest : Nat → List Char → Option (TypeTagList × List Char)
  | 0, _ => none
  | fuel + 1, cs =>
    match cs with
    | '>' :: rest => some (.nil, rest)
    | ',' :: ' ' :: rest =>
      match parseTypeTag fuel rest with
      | none => none
      | some (t, rest2) =>
        match parseTypeArgsRest fuel rest2 with
        | none => none
        | some (ts, rest3) => some (.cons t ts, rest3)
    | _ => none
end

/-- Modelled from the spec: `parse_sui_type_tag` — the external grammar parser
for type-identifier strings; accepts exactly the canonical renderings and
fails on anything else (unbalanced brackets included). -/
def parseSuiTypeTag (s : String) : Except String TypeTag :=
  match parseTypeTag (s.data.length + 1) s.data with
  | some (t, []) => .ok t
  | _ => .error "unexpected token or end of input in type tag"

/-- Modelled from the spec: `parse_sui_struct_tag` — the external grammar
parser for struct-identifier strings. -/
def parseSuiStructTag (s : String) : Except String StructTag :=
  match parseStructTag (s.data.length + 1) s.data with
  | some (t, []) => .ok t
  | _ => .error "unexpected token or end of input in struct tag"

/-- `SuiStructTag::serialize_as` (line 190): `value.to_string()` serialized as
a string, in every mode. -/
def SuiStructTag.serializeAs (v : StructTag) (hr : Bool) : Except String Value :=
  serializeStr (String.mk (printStructTag v)) hr

/-- `SuiStructTag::deserialize_as` (line 200): `String::deserialize`, then
`parse_sui_struct_tag` with its error passed to `D::Error::custom`. -/
def SuiStructTag.deserializeAs (v : Value) (hr : Bool) : Except String StructTag :=
  match deserializeStr v hr with
  | .error e => .error e
  | .ok s => parseSuiStructTag s

/-- `SuiTypeTag::serialize_as` (line 212): `value.to_string()` serialized as a
string, in every mode. -/
def SuiTypeTag.serializeAs (v : TypeTag) (hr : Bool) : Except String Value :=
  serializeStr (String.mk (printTypeTag v)) hr

/-- `SuiTypeTag::deserialize_as` (line 222): `String::deserialize`, then
`parse_sui_type_tag` with its error passed to `D::Error::custom`. -/
def SuiTypeTag.deserializeAs (v : Value) (hr : Bool) : Except String TypeTag :=
  match deserializeStr v hr with
  | .error e => .error e
  | .ok s => parseSuiTypeTag s

/-! # Theorems -/

/-! ## Decimal round-trip machinery -/

theorem toDecDigitsFuel_eq_digits : ∀ (fuel n : Nat), n ≤ fuel →
    toDecDigitsFuel fuel n = Nat.digits 10 n := by
  intro fuel
  induction fuel with
  | zero =>
    intro n hn
    simp only [Nat.le_zero] at hn
    subst hn
    simp [toDecDigitsFuel]
  | succ f ih =>
    intro n hn
    by_cases h0 : n = 0
    · subst h0
      simp [toDecDigitsFuel]
    · have hdiv : n / 10 ≤ f := by
        have : n / 10 < n := Nat.div_lt_self (Nat.pos_of_ne_zero h0) (by norm_num)
        omega
      rw [toDecDigitsFuel, if_neg h0, ih _ hdiv,
        Nat.digits_def' (by norm_num : 1 < 10) (Nat.pos_of_ne_zero h0)]

theorem toDecDigits_eq_digits (n : Nat) : toDecDigits n = Nat.digits 10 n :=
  toDecDigitsFuel_eq_digits n n (Nat.le_refl n)

theorem charToDigit_digitChar : ∀ d < 10, charToDigit (digitChar d) = some d := by
  decide

theorem digitChar_ne_plus : ∀ d < 10, digitChar d ≠ '+' := by
  decide

theorem digitsOfChars_map_digitChar : ∀ (l : List Nat), (∀ d ∈ l, d < 10) →
    digitsOfChars (l.map digitChar) = some l := by
  intro l
  induction l with
  | nil => intro _; rfl
  | cons d ds ih =>
    intro h
    have hd : d < 10 := h d (by simp)
    have hds : ∀ x ∈ ds, x < 10 := fun x hx => h x (by simp [hx])
    simp only [List.map_cons, digitsOfChars, charToDigit_digitChar d hd, ih hds]

theorem decDigitsToNat_reverse : ∀ (l : List Nat),
    decDigitsToNat l.reverse = Nat.ofDigits 10 l := by
  intro l
  induction l with
  | nil => simp [decDigitsToNat, Nat.ofDigits]
  | cons d ds ih =>
    simp only [List.reverse_cons, decDigitsToNat, List.foldl_append, List.foldl_cons,
      List.foldl_nil, Nat.ofDigits_cons]
    simp only [decDigitsToNat] at ih
    rw [ih]
    ring

theorem u64FromChars_map_digitChar (L : List Nat) (hne : L ≠ [])
    (hdig : ∀ d ∈ L, d < 10) (hb : Nat.ofDigits 10 L < 2 ^ 64) :
    u64FromChars (L.reverse.map digitChar) = some (Nat.ofDigits 10 L) := by
  have hrevdig : ∀ x ∈ L.reverse, x < 10 := fun x hx => hdig x (List.mem_reverse.mp hx)
  have hcs : L.reverse.map digitChar ≠ [] := by
    simp [hne]
  rw [u64FromChars, if_neg hcs, digitsOfChars_map_digitChar L.reverse hrevdig]
  simp only [decDigitsToNat_reverse L]
  rw [if_pos hb]

theorem u64FromStr_u64ToString : ∀ n < 2 ^ 64, u64FromStr (u64ToString n) = some n := by
  intro n hn
  by_cases h0 : n = 0
  · subst h0
    decide
  · have hdig : ∀ d ∈ Nat.digits 10 n, d < 10 := fun d hd =>
      Nat.digits_lt_base (by norm_num) hd
    have hne : Nat.digits 10 n ≠ [] := Nat.digits_ne_nil_iff_ne_zero.mpr h0
    have hrevne : (Nat.digits 10 n).reverse ≠ [] := by
      simpa using hne
    rw [u64ToString, if_neg h0, toDecDigits_eq_digits]
    set L := Nat.digits 10 n with hL
    obtain ⟨d, rds, hcons⟩ := List.exists_cons_of_ne_nil hrevne
    have hdmem : d ∈ L := List.mem_reverse.mp (by rw [hcons]; simp)
    have hd10 : d < 10 := hdig d hdmem
    have hplus : digitChar d ≠ '+' := digitChar_ne_plus d hd10
    have hb : Nat.ofDigits 10 L < 2 ^ 64 := by
      rw [hL, Nat.ofDigits_digits]
      exact hn
    have hhead : ((String.mk (L.reverse.map digitChar)).data.head? = some '+') = False := by
      rw [hcons]
      simp [hplus]
    rw [u64FromStr, if_neg (by rw [hhead]; exact id)]
    have := u64FromChars_map_digitChar L hne hdig hb
    rw [show (String.mk (L.reverse.map digitChar)).data = L.reverse.map digitChar from rfl,
      this, hL, Nat.ofDigits_digits]

/-! ## Claims C1–C4 -/

/-- C1 counterexample: at value `7` in binary mode (`is_human_readable = false`),
`BigInt::serialize_as` produces the decimal string `"7"`, which is not the
destination's native binary number encoding of `7` (the serde-native `u64`
strategy's output). -/
theorem bigInt_binary_mode_counterexample :
    BigInt.serializeAs 7 false = .ok (.vStr "7") ∧
    BigInt.serializeAs 7 false ≠ U64.serializeAs 7 false := by
  decide

/-- C1 amended: `BigInt::serialize_as` serializes the wrapped value as its
decimal string rendering in every serializer mode; a non-human-readable
serializer receives exactly the same decimal string as a human-readable one,
never the native binary number encoding. -/
theorem bigInt_serialize_always_decimal_string :
    ∀ (v : Nat) (hr : Bool),
      BigInt.serializeAs v hr = .ok (.vStr (u64ToString v)) ∧
      BigInt.serializeAs v false = BigInt.serializeAs v true := by
  intro v hr
  exact ⟨rfl, rfl⟩

/-- C2: for every `u64` value `v` (hence including `0` and `u64::MAX`),
deserializing the output of `BigInt::serialize_as` with
`BigInt::deserialize_as` returns `v`, in human-readable mode and in binary
mode alike (the mode `m` is arbitrary and shared by both sides). -/
theorem bigInt_u64_roundtrip (v : Nat) (m : Bool) (hv : v < 2 ^ 64) :
    ∃ out, BigInt.serializeAs v m = .ok out ∧ BigInt.deserializeAs out m = .ok v := by
  refine ⟨.vStr (u64ToString v), rfl, ?_⟩
  unfold BigInt.deserializeAs DisplayFromStr.deserializeAs deserializeStr
  simp only [u64FromStr_u64ToString v hv]

theorem bigInt_u64_roundtrip_witness :
    ((2 ^ 64 - 1 : Nat) < 2 ^ 64 ∧
      ∃ out, BigInt.serializeAs (2 ^ 64 - 1) false = .ok out ∧
        BigInt.deserializeAs out false = .ok (2 ^ 64 - 1)) ∧
    ((0 : Nat) < 2 ^ 64 ∧
      ∃ out, BigInt.serializeAs 0 true = .ok out ∧
        BigInt.deserializeAs out true = .ok 0) :=
  ⟨⟨by norm_num, bigInt_u64_roundtrip (2 ^ 64 - 1) false (by norm_num)⟩,
   ⟨by norm_num, bigInt_u64_roundtrip 0 true (by norm_num)⟩⟩

/-- C3: `Readable::<H, R>` delegates entirely to `H` when the serializer or
deserializer reports human-readable mode and entirely to `R` otherwise,
returning the chosen strategy's result unmodified; any error it returns is
the chosen strategy's own error. -/
theorem readable_dispatch_delegates :
    ∀ (T : Type) (H R : T → Bool → Except String Value)
      (HD RD : Value → Bool → Except String T) (v : T) (val : Value) (hr : Bool),
      (hr = true → Readable.serializeAs H R v hr = H v hr) ∧
      (hr = false → Readable.serializeAs H R v hr = R v hr) ∧
      (∀ e, Readable.serializeAs H R v hr = .error e →
        H v hr = .error e ∨ R v hr = .error e) ∧
      (hr = true → Readable.deserializeAs HD RD val hr = HD val hr) ∧
      (hr = false → Readable.deserializeAs HD RD val hr = RD val hr) ∧
      (∀ e, Readable.deserializeAs HD RD val hr = .error e →
        HD val hr = .error e ∨ RD val hr = .error e) := by
  intro T H R HD RD v val hr
  cases hr
  case false =>
    refine ⟨?_, ?_, ?_, ?_, ?_, ?_⟩
    · intro h
      exact absurd h (by decide)
    · intro _
      rfl
    · intro e he
      exact Or.inr he
    · intro h
      exact absurd h (by decide)
    · intro _
      rfl
    · intro e he
      exact Or.inr he
  case true =>
    refine ⟨?_, ?_, ?_, ?_, ?_, ?_⟩
    · intro _
      rfl
    · intro h
      exact absurd h (by decide)
    · intro e he
      exact Or.inl he
    · intro _
      rfl
    · intro h
      exact absurd h (by decide)
    · intro e he
      exact Or.inl he

theorem readable_dispatch_delegates_witness :
    Readable.serializeAs U64.serializeAs BigInt.serializeAs (3 : Nat) true =
      U64.serializeAs 3 true ∧
    Readable.deserializeAs U64.deserializeAs BigInt.deserializeAs (.vU64 3) false =
      BigInt.deserializeAs (.vU64 3) false :=
  ⟨(readable_dispatch_delegates Nat U64.serializeAs BigInt.serializeAs
      U64.deserializeAs BigInt.deserializeAs 3 (.vU64 3) true).1 rfl,
   (readable_dispatch_delegates Nat U64.serializeAs BigInt.serializeAs
      U64.deserializeAs BigInt.deserializeAs 3 (.vU64 3) false).2.2.2.2.1 rfl⟩

/-- C4: mode purity — for any two values of the adapted type and any reported
mode, the dispatcher's branch on `is_human_readable` selects the same strategy
for both values; the selection depends only on the mode flag, never on the
value.  The traced dispatcher agrees with the source dispatcher on the
result. -/
theorem readable_mode_purity :
    ∀ (T : Type) (H R : T → Bool → Except String Value) (v1 v2 : T)
      (HD RD : Value → Bool → Except String T) (w1 w2 : Value) (hr : Bool),
      (Readable.serializeAsTraced H R v1 hr).2 = (Readable.serializeAsTraced H R v2 hr).2 ∧
      (Readable.serializeAsTraced H R v1 hr).1 = Readable.serializeAs H R v1 hr ∧
      (Readable.deserializeAsTraced HD RD w1 hr).2 =
        (Readable.deserializeAsTraced HD RD w2 hr).2 ∧
      (Readable.deserializeAsTraced HD RD w1 hr).1 = Readable.deserializeAs HD RD w1 hr := by
  intro T H R v1 v2 HD RD w1 w2 hr
  cases hr <;>
    simp [Readable.serializeAsTraced, Readable.deserializeAsTraced,
      Readable.serializeAs, Readable.deserializeAs]

/-! ## Claim C8 -/

/-- C8: the structural schema generated for a `BigInt` field has instance type
`"string"` — via `#[schemars(with = "String")]` it is the schema of `String` —
and in particular is neither `"number"` nor `"integer"` (the schema the
underlying `u64` would generate). -/
theorem bigInt_schema_instance_type_string :
    BigInt.schemaInstanceType = .string ∧
    BigInt.schemaInstanceType ≠ .number ∧
    BigInt.schemaInstanceType ≠ .integer ∧
    BigInt.schemaInstanceType ≠ u64SchemaInstanceType := by
  decide

/-! ## Claim C9 -/

theorem isPrefixOf_append_self (p b : List Char) : p.isPrefixOf (p ++ b) = true := by
  induction p with
  | nil => simp [List.isPrefixOf]
  | cons c cs ih => simp [List.isPrefixOf, ih]

theorem isPrefixOf_cons_append (p : Char) (ps b : List Char) :
    (p :: ps).isPrefixOf (p :: (ps ++ b)) = true := by
  have := isPrefixOf_append_self (p :: ps) b
  simpa using this

theorem listHasSub_nil_pat (l : List Char) : listHasSub [] l = true := by
  cases l with
  | nil => rfl
  | cons c rest => simp [listHasSub, List.isPrefixOf]

theorem listHasSub_self_append (pat b : List Char) : listHasSub pat (pat ++ b) = true := by
  cases pat with
  | nil => exact listHasSub_nil_pat _
  | cons p ps => simp [listHasSub, isPrefixOf_cons_append]

theorem listHasSub_append (a pat b : List Char) : listHasSub pat (a ++ pat ++ b) = true := by
  induction a with
  | nil =>
    simp only [List.nil_append]
    exact listHasSub_self_append pat b
  | cons c cs ih =>
    have ih2 : listHasSub pat (cs ++ (pat ++ b)) = true := by
      simpa [List.append_assoc] using ih
    simp [listHasSub, ih2]

/-- C9 counterexample: the decode-side translator applied to the underlying
error `"x"` (with its debug formatting abstracted as the identity) produces
`"byte deserialization failed, cause by: x"`, whose text does not contain the
claimed separator `" failed, caused by: "` at all; likewise for the encode
side.  Hence neither message has the form `"<operation> failed, caused by:
<details>"`. -/
theorem error_translator_caused_by_counterexample :
    toCustomError (fun s => s) "x" = "byte deserialization failed, cause by: x" ∧
    listHasSub " failed, caused by: ".data (toCustomError (fun s => s) "x").data = false ∧
    listHasSub " failed, caused by: ".data (toCustomSerError (fun s => s) "x").data = false := by
  decide

/-- C9 amended: for every underlying error value, the two translators produce
exactly `"byte deserialization failed, cause by: <details>"` (decode side) and
`"byte serialization failed, cause by: <details>"` (encode side), where
`<details>` is the debug-formatted underlying error; the two sides' messages
are never equal. -/
theorem error_translators_message_form :
    ∀ (E : Type) (debugFmt : E → String) (e : E),
      toCustomError debugFmt e = "byte deserialization failed, cause by: " ++ debugFmt e ∧
      toCustomSerError debugFmt e = "byte serialization failed, cause by: " ++ debugFmt e ∧
      toCustomError debugFmt e ≠ toCustomSerError debugFmt e := by
  intro E debugFmt e
  refine ⟨rfl, rfl, fun h => ?_⟩
  have hdata := congrArg String.data h
  simp only [toCustomError, toCustomSerError, String.data_append] at hdata
  have hlen := congrArg List.length hdata
  simp only [List.length_append, List.length_cons, List.length_nil] at hlen
  omega

/-! ## Claim C10 -/

/-- C10: `SequenceNumber` and `AsProtocolVersion` serialize the wrapped `u64`
as its decimal string in every serializer mode (the output never depends on
the mode flag), and their deserializers read a string through `BigInt` — a
native binary `u64` node is rejected with a type error in both modes, while
the decimal string is accepted in both modes. -/
theorem sequence_number_protocol_version_always_string :
    ∀ (v : Nat) (hr : Bool),
      SequenceNumber.serializeAs v hr = .ok (.vStr (u64ToString v)) ∧
      AsProtocolVersion.serializeAs v hr = .ok (.vStr (u64ToString v)) ∧
      SequenceNumber.serializeAs v hr = SequenceNumber.serializeAs v true ∧
      AsProtocolVersion.serializeAs v hr = AsProtocolVersion.serializeAs v true ∧
      (∀ n, SequenceNumber.deserializeAs (.vU64 n) hr =
        .error "invalid type: expected a string") ∧
      (∀ n, AsProtocolVersion.deserializeAs (.vU64 n) hr =
        .error "invalid type: expected a string") ∧
      (v < 2 ^ 64 →
        SequenceNumber.deserializeAs (.vStr (u64ToString v)) hr = .ok v ∧
        AsProtocolVersion.deserializeAs (.vStr (u64ToString v)) hr = .ok v) := by
  intro v hr
  refine ⟨rfl, rfl, rfl, rfl, fun n => rfl, fun n => rfl, fun hv => ⟨?_, ?_⟩⟩ <;>
    simp only [SequenceNumber.deserializeAs, AsProtocolVersion.deserializeAs,
      BigInt.deserializeAs, DisplayFromStr.deserializeAs, deserializeStr,
      u64FromStr_u64ToString v hv]

theorem sequence_number_protocol_version_witness :
    SequenceNumber.deserializeAs (.vStr (u64ToString 5)) false = .ok 5 ∧
    AsProtocolVersion.deserializeAs (.vStr (u64ToString 5)) false = .ok 5 :=
  (sequence_number_protocol_version_always_string 5 false).2.2.2.2.2.2 (by norm_num)

/-! ## Claim C5 -/

theorem hexPairsToBytes_odd : ∀ (cs : List Char), cs.length % 2 = 1 →
    hexPairsToBytes cs = none
  | [], h => by simp at h
  | [c], h => rfl
  | c1 :: c2 :: rest, h => by
    have hr : rest.length % 2 = 1 := by
      simp only [List.length_cons] at h
      omega
    have ih := hexPairsToBytes_odd rest hr
    simp only [hexPairsToBytes]
    rw [ih] <;> cases hexCharToNat c1 <;> cases hexCharToNat c2 <;> rfl

theorem hexPairsToBytes_nonhex : ∀ (cs : List Char), ∀ c ∈ cs,
    hexCharToNat c = none → hexPairsToBytes cs = none
  | [], c, hc, _ => absurd hc (List.not_mem_nil c)
  | [c1], c, hc, hnone => rfl
  | c1 :: c2 :: rest, c, hc, hnone => by
    rcases List.mem_cons.mp hc with h1 | hc2
    · subst h1
      simp only [hexPairsToBytes]
      rw [hnone] <;> cases hexCharToNat c2 <;> cases hexPairsToBytes rest <;> rfl
    · rcases List.mem_cons.mp hc2 with h2 | hrest
      · subst h2
        simp only [hexPairsToBytes]
        rw [hnone] <;> cases hexCharToNat c1 <;> cases hexPairsToBytes rest <;> rfl
      · have ih := hexPairsToBytes_nonhex rest c hrest hnone
        simp only [hexPairsToBytes]
        rw [ih] <;> cases hexCharToNat c1 <;> cases hexCharToNat c2 <;> rfl

theorem hexAccountAddress_fail_of_bad_hex (s : String) (hr : Bool)
    (hbad : hexPairsToBytes (hexPart s.data) = none) :
    ∃ e, HexAccountAddress.deserializeAs (.vStr s) hr = .error e := by
  simp only [HexAccountAddress.deserializeAs, deserializeStr]
  by_cases hpre : s.data.take 2 = ['0', 'x']
  · have hrest : s.data = '0' :: 'x' :: s.data.drop 2 := by
      conv_lhs => rw [← List.take_append_drop 2 s.data]
      rw [hpre]
      rfl
    rw [hexPart, if_pos hpre] at hbad
    rw [if_pos hpre, hrest]
    simp only [AccountAddress.fromHexLiteral, AccountAddress.fromHex]
    rw [hbad]
    exact ⟨_, rfl⟩
  · rw [hexPart, if_neg hpre] at hbad
    rw [if_neg hpre]
    simp only [AccountAddress.fromHex]
    rw [hbad]
    exact ⟨_, rfl⟩

/-- C5: `HexAccountAddress::deserialize_as` decodes both `"0x00"` and `"00"`
to the same zero address, and fails with a conversion error on any input
string whose hex-digit portion has odd length or contains a non-hex
character. -/
theorem hex_account_address_decode :
    ∀ (s : String) (hr : Bool),
      HexAccountAddress.deserializeAs (.vStr "0x00") hr = .ok zeroAddress ∧
      HexAccountAddress.deserializeAs (.vStr "00") hr = .ok zeroAddress ∧
      ((hexPart s.data).length % 2 = 1 →
        ∃ e, HexAccountAddress.deserializeAs (.vStr s) hr = .error e) ∧
      (∀ c ∈ hexPart s.data, hexCharToNat c = none →
        ∃ e, HexAccountAddress.deserializeAs (.vStr s) hr = .error e) := by
  intro s hr
  refine ⟨?_, ?_, ?_, ?_⟩
  · cases hr <;> decide
  · cases hr <;> decide
  · intro hodd
    exact hexAccountAddress_fail_of_bad_hex s hr (hexPairsToBytes_odd _ hodd)
  · intro c hc hnone
    exact hexAccountAddress_fail_of_bad_hex s hr (hexPairsToBytes_nonhex _ c hc hnone)

theorem hex_account_address_decode_witness :
    HexAccountAddress.deserializeAs (.vStr "0x00") true = .ok zeroAddress ∧
    (∃ e, HexAccountAddress.deserializeAs (.vStr "abc") true = .error e) ∧
    (∃ e, HexAccountAddress.deserializeAs (.vStr "0xzz") false = .error e) :=
  ⟨(hex_account_address_decode "abc" true).1,
   (hex_account_address_decode "abc" true).2.2.1 (by decide),
   (hex_account_address_decode "0xzz" false).2.2.2 'z' (by decide) (by decide)⟩

/-! ## Claim C6: byte-level round-trip lemmas -/

theorem readU16le_u16leBytes (n : Nat) (h : n < 65536) (rest : List Nat) :
    readU16le (u16leBytes n ++ rest) = some (n, rest) := by
  simp only [u16leBytes, List.cons_append, List.nil_append, readU16le]
  have hsum : n % 256 + 256 * (n / 256 % 256) = n := by omega
  rw [hsum]

theorem readU32le_u32leBytes (n : Nat) (h : n < 4294967296) (rest : List Nat) :
    readU32le (u32leBytes n ++ rest) = some (n, rest) := by
  simp only [u32leBytes, List.cons_append, List.nil_append, readU32le]
  have hsum : n % 256 + 256 * (n / 256 % 256) + 65536 * (n / 65536 % 256) +
      16777216 * (n / 16777216 % 256) = n := by omega
  rw [hsum]

theorem readU16List_u16ListBytes (cnt : Nat) (vals : List Nat) (hcnt : cnt = vals.length)
    (h : ∀ v ∈ vals, v < 65536) (rest : List Nat) :
    readU16List cnt (u16ListBytes vals ++ rest) = some (vals, rest) := by
  subst hcnt
  induction vals with
  | nil => rfl
  | cons v vs ih =>
    have hv : v < 65536 := h v (by simp)
    have hvs : ∀ x ∈ vs, x < 65536 := fun x hx => h x (by simp [hx])
    simp only [List.length_cons, u16ListBytes, List.append_assoc, readU16List,
      readU16le_u16leBytes v hv, ih hvs]

theorem readU32List_u32ListBytes (cnt : Nat) (vals : List Nat) (hcnt : cnt = vals.length)
    (h : ∀ v ∈ vals, v < 4294967296) (rest : List Nat) :
    readU32List cnt (u32ListBytes vals ++ rest) = some (vals, rest) := by
  subst hcnt
  induction vals with
  | nil => rfl
  | cons v vs ih =>
    have hv : v < 4294967296 := h v (by simp)
    have hvs : ∀ x ∈ vs, x < 4294967296 := fun x hx => h x (by simp [hx])
    simp only [List.length_cons, u32ListBytes, List.append_assoc, readU32List,
      readU32le_u32leBytes v hv, ih hvs]

theorem readBytesN_append (chunk rest : List Nat) :
    readBytesN chunk.length (chunk ++ rest) = some (chunk, rest) := by
  induction chunk with
  | nil => rfl
  | cons b bs ih => simp only [List.length_cons, List.cons_append, readBytesN,
      List.append_eq, ih]

/-! ## Claim C6: sortedness machinery -/

theorem isStrictSorted_iff : ∀ (l : List Nat), isStrictSorted l = true ↔ List.Chain' (· < ·) l
  | [] => by simp [isStrictSorted]
  | [a] => by simp [isStrictSorted]
  | a :: b :: rest => by
    simp only [isStrictSorted, Bool.and_eq_true, decide_eq_true_eq, List.chain'_cons,
      isStrictSorted_iff (b :: rest)]

theorem isStrictSorted_pairwise (l : List Nat) (h : isStrictSorted l = true) :
    l.Pairwise (· < ·) :=
  List.chain'_iff_pairwise.mp ((isStrictSorted_iff l).mp h)

theorem pairwise_isStrictSorted (l : List Nat) (h : l.Pairwise (· < ·)) :
    isStrictSorted l = true :=
  (isStrictSorted_iff l).mpr (List.chain'_iff_pairwise.mpr h)

theorem strictSorted_length_le (l : List Nat) (B : Nat) (hs : isStrictSorted l = true)
    (hb : ∀ v ∈ l, v < B) : l.length ≤ B := by
  have hp := isStrictSorted_pairwise l hs
  have hnd : l.Nodup := hp.imp (fun hlt => Nat.ne_of_lt hlt)
  have hcard : l.toFinset.card = l.length := List.toFinset_card_of_nodup hnd
  have hsub : l.toFinset ⊆ Finset.range B := by
    intro x hx
    rw [List.mem_toFinset] at hx
    exact Finset.mem_range.mpr (hb x hx)
  have hle := Finset.card_le_card hsub
  rw [hcard, Finset.card_range] at hle
  exact hle

theorem sorted_eq_of_mem_iff (l1 l2 : List Nat) (h1 : l1.Pairwise (· < ·))
    (h2 : l2.Pairwise (· < ·)) (hm : ∀ x, x ∈ l1 ↔ x ∈ l2) : l1 = l2 := by
  have hnd1 : l1.Nodup := h1.imp (fun hlt => Nat.ne_of_lt hlt)
  have hnd2 : l2.Nodup := h2.imp (fun hlt => Nat.ne_of_lt hlt)
  exact List.eq_of_perm_of_sorted ((List.perm_ext_iff_of_nodup hnd1 hnd2).mpr hm) h1 h2

theorem filter_range_eq_of_sorted (l : List Nat) (B : Nat) (hs : l.Pairwise (· < ·))
    (hb : ∀ v ∈ l, v < B) :
    (List.range B).filter (fun v => decide (v ∈ l)) = l := by
  apply sorted_eq_of_mem_iff
  · exact (List.pairwise_lt_range B).sublist (List.filter_sublist _)
  · exact hs
  · intro x
    simp only [List.mem_filter, List.mem_range, decide_eq_true_eq]
    exact ⟨fun h => h.2, fun hx => ⟨hb x hx, hx⟩⟩

/-! ## Claim C6: bitset container lemmas -/

theorem byteOfBits_testBit : ∀ (b0 b1 b2 b3 b4 b5 b6 b7 : Bool), ∀ k < 8,
    (byteOfBits b0 b1 b2 b3 b4 b5 b6 b7).testBit k =
      [b0, b1, b2, b3, b4, b5, b6, b7].getD k false := by
  decide

theorem byteOfBits_testBit_self : ∀ n < 256,
    byteOfBits (n.testBit 0) (n.testBit 1) (n.testBit 2) (n.testBit 3)
      (n.testBit 4) (n.testBit 5) (n.testBit 6) (n.testBit 7) = n := by
  decide

theorem bitsetBytes_length (vals : List Nat) : (bitsetBytes vals).length = 8192 := by
  simp [bitsetBytes]

theorem bitsetBytes_getD (vals : List Nat) (j : Nat) (hj : j < 8192) :
    (bitsetBytes vals).getD j 0 = bitsetByte vals j := by
  rw [List.getD_eq_getElem?_getD, bitsetBytes, List.getElem?_map, List.getElem?_range hj]
  rfl

theorem getD_eight (f : Nat → Bool) : ∀ k < 8,
    [f 0, f 1, f 2, f 3, f 4, f 5, f 6, f 7].getD k false = f k := by
  intro k hk
  interval_cases k <;> rfl

theorem testBit_bitsetBytes (vals : List Nat) (v : Nat) (hv : v < 65536) :
    Nat.testBit ((bitsetBytes vals).getD (v / 8) 0) (v % 8) = decide (v ∈ vals) := by
  have hj : v / 8 < 8192 := by omega
  have hk : v % 8 < 8 := Nat.mod_lt v (by norm_num)
  rw [bitsetBytes_getD vals (v / 8) hj, bitsetByte,
    byteOfBits_testBit _ _ _ _ _ _ _ _ (v % 8) hk]
  have hlist := getD_eight (fun k => decide (8 * (v / 8) + k ∈ vals)) (v % 8) hk
  simp only [Nat.add_zero] at hlist
  rw [show (decide (8 * (v / 8) ∈ vals)) = (fun k => decide (8 * (v / 8) + k ∈ vals)) 0 by simp]
  rw [show (decide (8 * (v / 8) + 1 ∈ vals)) = (fun k => decide (8 * (v / 8) + k ∈ vals)) 1 from rfl,
    show (decide (8 * (v / 8) + 2 ∈ vals)) = (fun k => decide (8 * (v / 8) + k ∈ vals)) 2 from rfl,
    show (decide (8 * (v / 8) + 3 ∈ vals)) = (fun k => decide (8 * (v / 8) + k ∈ vals)) 3 from rfl,
    show (decide (8 * (v / 8) + 4 ∈ vals)) = (fun k => decide (8 * (v / 8) + k ∈ vals)) 4 from rfl,
    show (decide (8 * (v / 8) + 5 ∈ vals)) = (fun k => decide (8 * (v / 8) + k ∈ vals)) 5 from rfl,
    show (decide (8 * (v / 8) + 6 ∈ vals)) = (fun k => decide (8 * (v / 8) + k ∈ vals)) 6 from rfl,
    show (decide (8 * (v / 8) + 7 ∈ vals)) = (fun k => decide (8 * (v / 8) + k ∈ vals)) 7 from rfl]
  rw [getD_eight (fun k => decide (8 * (v / 8) + k ∈ vals)) (v % 8) hk]
  have hsplit : 8 * (v / 8) + v % 8 = v := by omega
  rw [hsplit]

theorem bitsetDecode_bitsetBytes (vals : List Nat) (hs : isStrictSorted vals = true)
    (hb : ∀ v ∈ vals, v < 65536) : bitsetDecode (bitsetBytes vals) = vals := by
  have hcong : ((List.range 65536).filter
      (fun v => Nat.testBit ((bitsetBytes vals).getD (v / 8) 0) (v % 8))) =
      (List.range 65536).filter (fun v => decide (v ∈ vals)) :=
    List.filter_congr (fun v hv => testBit_bitsetBytes vals v (List.mem_range.mp hv))
  rw [bitsetDecode, hcong]
  exact filter_range_eq_of_sorted vals 65536 (isStrictSorted_pairwise vals hs) hb

/-! ## Claim C6: container and stream round-trip -/

theorem readContainer_containerBytes (vals : List Nat) (hne : vals ≠ [])
    (hs : isStrictSorted vals = true) (hb : ∀ v ∈ vals, v < 65536) (rest : List Nat) :
    readContainer vals.length (containerBytes vals ++ rest) = some (vals, rest) := by
  by_cases hlen : vals.length ≤ 4096
  · rw [containerBytes, if_pos hlen]
    simp only [readContainer, if_pos hlen,
      readU16List_u16ListBytes vals.length vals rfl hb rest, hs, if_true]
  · rw [containerBytes, if_neg hlen]
    simp only [readContainer, if_neg hlen]
    rw [show (8192 : Nat) = (bitsetBytes vals).length from (bitsetBytes_length vals).symm,
      readBytesN_append]
    simp [bitsetDecode_bitsetBytes vals hs hb]

theorem readContainerList_containersBytes (cs : List (Nat × List Nat))
    (h : ∀ kc ∈ cs, kc.2 ≠ [] ∧ isStrictSorted kc.2 = true ∧ ∀ v ∈ kc.2, v < 65536)
    (rest : List Nat) :
    readContainerList (headerPairsOf cs) (containersBytes cs ++ rest) = some (cs, rest) := by
  induction cs with
  | nil => rfl
  | cons kc cs ih =>
    obtain ⟨k, vs⟩ := kc
    have hkc := h (k, vs) (by simp)
    have hrest : ∀ x ∈ cs, x.2 ≠ [] ∧ isStrictSorted x.2 = true ∧ ∀ v ∈ x.2, v < 65536 :=
      fun x hx => h x (by simp [hx])
    have ih2 := ih hrest
    simp only [headerPairsOf, List.map_cons] at ih2 ⊢
    simp only [containersBytes, List.append_assoc, readContainerList,
      readContainer_containerBytes vs hkc.1 hkc.2.1 hkc.2.2, ih2]

theorem readHeaderPairs_headerPairBytes (cnt : Nat) (ps : List (Nat × Nat))
    (hcnt : cnt = ps.length) (h : ∀ p ∈ ps, p.1 < 65536 ∧ 1 ≤ p.2 ∧ p.2 ≤ 65536)
    (rest : List Nat) :
    readHeaderPairs cnt (headerPairBytes ps ++ rest) = some (ps, rest) := by
  subst hcnt
  induction ps with
  | nil => rfl
  | cons p ps ih =>
    obtain ⟨k, card⟩ := p
    have hp := h (k, card) (by simp)
    have hps : ∀ x ∈ ps, x.1 < 65536 ∧ 1 ≤ x.2 ∧ x.2 ≤ 65536 := fun x hx => h x (by simp [hx])
    simp only [List.length_cons, headerPairBytes, List.append_assoc, readHeaderPairs,
      readU16le_u16leBytes k hp.1, readU16le_u16leBytes (card - 1) (by omega) _, ih hps,
      show card - 1 + 1 = card from by omega]

theorem containerSizeBytes_le (c : Nat) : containerSizeBytes c ≤ 8192 := by
  rw [containerSizeBytes]
  split <;> omega

theorem offsetsOfCards_length (start : Nat) (cards : List Nat) :
    (offsetsOfCards start cards).length = cards.length := by
  induction cards generalizing start with
  | nil => rfl
  | cons c cs ih => simp [offsetsOfCards, ih]

theorem offsetsOfCards_le (start : Nat) (cards : List Nat) :
    ∀ x ∈ offsetsOfCards start cards, x ≤ start + 8192 * cards.length := by
  induction cards generalizing start with
  | nil =>
    intro x hx
    simp [offsetsOfCards] at hx
  | cons c cs ih =>
    intro x hx
    simp only [offsetsOfCards, List.mem_cons] at hx
    rcases hx with h | h
    · subst h
      simp only [List.length_cons]
      omega
    · have := ih (start + containerSizeBytes c) x h
      have hsz := containerSizeBytes_le c
      simp only [List.length_cons]
      omega

theorem deserializeFrom_serializeInto (b : RoaringBitmap) (hWF : b.WF) :
    deserializeFrom (serializeInto b) = some b := by
  obtain ⟨hkeys, hconts⟩ := hWF
  have hn : b.containers.length ≤ 65536 := by
    have hlen := strictSorted_length_le (b.containers.map Prod.fst) 65536 hkeys ?keys
    · simpa using hlen
    case keys =>
      intro v hv
      obtain ⟨kc, hkc, rfl⟩ := List.mem_map.mp hv
      exact (hconts kc hkc).1
  have hpairs : ∀ p ∈ headerPairsOf b.containers, p.1 < 65536 ∧ 1 ≤ p.2 ∧ p.2 ≤ 65536 := by
    intro p hp
    obtain ⟨kc, hkc, rfl⟩ := List.mem_map.mp hp
    have h1 := hconts kc hkc
    refine ⟨h1.1, ?_, strictSorted_length_le kc.2 65536 h1.2.2.1 h1.2.2.2⟩
    cases h2 : kc.2 with
    | nil => exact absurd h2 h1.2.1
    | cons _ _ => simp [h2]
  have hcnt : b.containers.length = (headerPairsOf b.containers).length := by
    simp [headerPairsOf]
  have hoffbound : ∀ x ∈ offsetsOfCards (8 + 8 * b.containers.length)
      (b.containers.map (fun kc => kc.2.length)), x < 4294967296 := by
    intro x hx
    have := offsetsOfCards_le (8 + 8 * b.containers.length)
      (b.containers.map (fun kc => kc.2.length)) x hx
    simp only [List.length_map] at this
    omega
  have hoffcnt : b.containers.length = (offsetsOfCards (8 + 8 * b.containers.length)
      (b.containers.map (fun kc => kc.2.length))).length := by
    rw [offsetsOfCards_length]
    simp
  have hmapfst : (headerPairsOf b.containers).map Prod.fst = b.containers.map Prod.fst := by
    simp [headerPairsOf]
  have hmapsnd : (headerPairsOf b.containers).map Prod.snd =
      b.containers.map (fun kc => kc.2.length) := by
    simp [headerPairsOf]
  have hcWF : ∀ kc ∈ b.containers, kc.2 ≠ [] ∧ isStrictSorted kc.2 = true ∧
      ∀ v ∈ kc.2, v < 65536 :=
    fun kc hkc => ⟨(hconts kc hkc).2.1, (hconts kc hkc).2.2.1, (hconts kc hkc).2.2.2⟩
  have hclist := readContainerList_containersBytes b.containers hcWF []
  rw [List.append_nil] at hclist
  simp only [serializeInto, deserializeFrom, List.append_assoc, descriptiveHeaderBytes]
  rw [readU32le_u32leBytes 12346 (by norm_num)]
  simp only [if_pos rfl]
  rw [readU32le_u32leBytes b.containers.length (by omega)]
  simp only []
  rw [readHeaderPairs_headerPairBytes b.containers.length (headerPairsOf b.containers)
    hcnt hpairs]
  simp only [hmapfst, hkeys, if_true]
  rw [readU32List_u32ListBytes b.containers.length _ hoffcnt hoffbound]
  simp only [hmapsnd, if_pos rfl]
  rw [hclist]
  simp

/-! ## Claim C6: decoder soundness (every accepted byte stream is the canonical
encoding of the decoded bitmap) -/

theorem readU16le_sound (bs rest : List Nat) (n : Nat)
    (hv : ∀ x ∈ bs, x < 256) (h : readU16le bs = some (n, rest)) :
    bs = u16leBytes n ++ rest ∧ n < 65536 ∧ ∀ x ∈ rest, x < 256 := by
  cases bs with
  | nil => simp [readU16le] at h
  | cons b0 t =>
    cases t with
    | nil => simp [readU16le] at h
    | cons b1 rest' =>
      simp only [readU16le, Option.some.injEq, Prod.mk.injEq] at h
      obtain ⟨hn, hrest⟩ := h
      subst hrest
      have h0 : b0 < 256 := hv b0 (by simp)
      have h1 : b1 < 256 := hv b1 (by simp)
      refine ⟨?_, by omega, fun x hx => hv x (by simp [hx])⟩
      simp only [u16leBytes, List.cons_append, List.nil_append, List.cons.injEq]
      exact ⟨by omega, by omega, by trivial⟩

theorem readU32le_sound (bs rest : List Nat) (n : Nat)
    (hv : ∀ x ∈ bs, x < 256) (h : readU32le bs = some (n, rest)) :
    bs = u32leBytes n ++ rest ∧ n < 4294967296 ∧ ∀ x ∈ rest, x < 256 := by
  match bs with
  | [] => simp [readU32le] at h
  | [b0] => simp [readU32le] at h
  | [b0, b1] => simp [readU32le] at h
  | [b0, b1, b2] => simp [readU32le] at h
  | b0 :: b1 :: b2 :: b3 :: rest' =>
    simp only [readU32le, Option.some.injEq, Prod.mk.injEq] at h
    obtain ⟨hn, hrest⟩ := h
    subst hrest
    have h0 : b0 < 256 := hv b0 (by simp)
    have h1 : b1 < 256 := hv b1 (by simp)
    have h2 : b2 < 256 := hv b2 (by simp)
    have h3 : b3 < 256 := hv b3 (by simp)
    refine ⟨?_, by omega, fun x hx => hv x (by simp [hx])⟩
    simp only [u32leBytes, List.cons_append, List.nil_append, List.cons.injEq]
    exact ⟨by omega, by omega, by omega, by omega, by trivial⟩

theorem readU16List_sound (cnt : Nat) (bs vals rest : List Nat)
    (hv : ∀ x ∈ bs, x < 256) (h : readU16List cnt bs = some (vals, rest)) :
    bs = u16ListBytes vals ++ rest ∧ vals.length = cnt ∧ (∀ v ∈ vals, v < 65536) ∧
      ∀ x ∈ rest, x < 256 := by
  induction cnt generalizing bs vals rest with
  | zero =>
    simp only [readU16List, Option.some.injEq, Prod.mk.injEq] at h
    obtain ⟨hvals, hrest⟩ := h
    subst hvals
    subst hrest
    exact ⟨rfl, rfl, by simp, hv⟩
  | succ k ih =>
    simp only [readU16List] at h
    split at h
    · simp at h
    · rename_i v bs1 heq
      split at h
      · simp at h
      · rename_i vs bs2 heq2
        simp only [Option.some.injEq, Prod.mk.injEq] at h
        obtain ⟨hvals, hrest⟩ := h
        subst hvals
        subst hrest
        obtain ⟨hbs, hvlt, hbs1⟩ := readU16le_sound bs bs1 v hv heq
        obtain ⟨hbs1eq, hlen, hvslt, hrestv⟩ := ih bs1 vs bs2 hbs1 heq2
        refine ⟨?_, by simp [hlen], ?_, hrestv⟩
        · rw [hbs, hbs1eq, u16ListBytes, List.append_assoc]
        · intro x hx
          rcases List.mem_cons.mp hx with hx1 | hx2
          · subst hx1; exact hvlt
          · exact hvslt x hx2

theorem readU32List_sound (cnt : Nat) (bs vals rest : List Nat)
    (hv : ∀ x ∈ bs, x < 256) (h : readU32List cnt bs = some (vals, rest)) :
    bs = u32ListBytes vals ++ rest ∧ vals.length = cnt ∧ ∀ x ∈ rest, x < 256 := by
  induction cnt generalizing bs vals rest with
  | zero =>
    simp only [readU32List, Option.some.injEq, Prod.mk.injEq] at h
    obtain ⟨hvals, hrest⟩ := h
    subst hvals
    subst hrest
    exact ⟨rfl, rfl, hv⟩
  | succ k ih =>
    simp only [readU32List] at h
    split at h
    · simp at h
    · rename_i v bs1 heq
      split at h
      · simp at h
      · rename_i vs bs2 heq2
        simp only [Option.some.injEq, Prod.mk.injEq] at h
        obtain ⟨hvals, hrest⟩ := h
        subst hvals
        subst hrest
        obtain ⟨hbs, hvlt, hbs1⟩ := readU32le_sound bs bs1 v hv heq
        obtain ⟨hbs1eq, hlen, hrestv⟩ := ih bs1 vs bs2 hbs1 heq2
        refine ⟨?_, by simp [hlen], hrestv⟩
        rw [hbs, hbs1eq, u32ListBytes, List.append_assoc]

theorem readBytesN_sound (cnt : Nat) (bs chunk rest : List Nat)
    (h : readBytesN cnt bs = some (chunk, rest)) :
    bs = chunk ++ rest ∧ chunk.length = cnt := by
  induction cnt generalizing bs chunk rest with
  | zero =>
    simp only [readBytesN, Option.some.injEq, Prod.mk.injEq] at h
    obtain ⟨hchunk, hrest⟩ := h
    subst hchunk
    subst hrest
    exact ⟨rfl, rfl⟩
  | succ k ih =>
    cases bs with
    | nil => simp [readBytesN] at h
    | cons b t =>
      simp only [readBytesN] at h
      split at h
      · simp at h
      · rename_i taken rest' heq
        simp only [Option.some.injEq, Prod.mk.injEq] at h
        obtain ⟨hchunk, hrest⟩ := h
        subst hchunk
        subst hrest
        obtain ⟨hteq, hlen⟩ := ih t taken rest' heq
        exact ⟨by rw [hteq]; rfl, by simp [hlen]⟩

theorem bitsetBytes_bitsetDecode (chunk : List Nat) (hlen : chunk.length = 8192)
    (hv : ∀ x ∈ chunk, x < 256) : bitsetBytes (bitsetDecode chunk) = chunk := by
  have hmem : ∀ v, (v ∈ bitsetDecode chunk) ↔
      (v < 65536 ∧ Nat.testBit (chunk.getD (v / 8) 0) (v % 8) = true) := by
    intro v
    simp only [bitsetDecode, List.mem_filter, List.mem_range]
  have hgd : ∀ j, j < 8192 → chunk.getD j 0 ∈ chunk := by
    intro j hjlt
    cases hsome : chunk[j]? with
    | none =>
      have := List.getElem?_eq_none_iff.mp hsome
      omega
    | some c =>
      have hcval : chunk.getD j 0 = c := by
        rw [List.getD_eq_getElem?_getD, hsome]
        rfl
      rw [hcval]
      exact List.getElem?_mem hsome
  have hbit : ∀ j, j < 8192 → ∀ k, k < 8 →
      (decide (8 * j + k ∈ bitsetDecode chunk)) = (chunk.getD j 0).testBit k := by
    intro j hjlt k hk
    have h1 : (8 * j + k) / 8 = j := by omega
    have h2 : (8 * j + k) % 8 = k := by omega
    have h3 : 8 * j + k < 65536 := by omega
    have hiff : (8 * j + k ∈ bitsetDecode chunk) ↔ ((chunk.getD j 0).testBit k = true) := by
      rw [hmem]
      constructor
      · intro hh
        rw [h1, h2] at hh
        exact hh.2
      · intro hh
        refine ⟨h3, ?_⟩
        rw [h1, h2]
        exact hh
    calc decide (8 * j + k ∈ bitsetDecode chunk)
        = decide ((chunk.getD j 0).testBit k = true) := decide_eq_decide.mpr hiff
      _ = (chunk.getD j 0).testBit k := by simp
  have hbyte : ∀ j, j < 8192 → bitsetByte (bitsetDecode chunk) j = chunk.getD j 0 := by
    intro j hjlt
    have hb0 := hbit j hjlt 0 (by norm_num)
    simp only [Nat.add_zero] at hb0
    rw [bitsetByte, hb0, hbit j hjlt 1 (by norm_num), hbit j hjlt 2 (by norm_num),
      hbit j hjlt 3 (by norm_num), hbit j hjlt 4 (by norm_num), hbit j hjlt 5 (by norm_num),
      hbit j hjlt 6 (by norm_num), hbit j hjlt 7 (by norm_num)]
    exact byteOfBits_testBit_self (chunk.getD j 0) (hv _ (hgd j hjlt))
  apply List.ext_getElem?
  intro n
  by_cases hn : n < 8192
  · have hleft : (bitsetBytes (bitsetDecode chunk))[n]? =
        some (bitsetByte (bitsetDecode chunk) n) := by
      rw [bitsetBytes, List.getElem?_map, List.getElem?_range hn]
      rfl
    cases hsome : chunk[n]? with
    | none =>
      have := List.getElem?_eq_none_iff.mp hsome
      omega
    | some c =>
      have hcval : chunk.getD n 0 = c := by
        rw [List.getD_eq_getElem?_getD, hsome]
        rfl
      rw [hleft, hbyte n hn, hcval]
  · have h1 : (bitsetBytes (bitsetDecode chunk))[n]? = none :=
      List.getElem?_eq_none (by rw [bitsetBytes_length]; omega)
    have h2 : chunk[n]? = none := List.getElem?_eq_none (by omega)
    rw [h1, h2]

theorem readContainer_sound (card : Nat) (bs vals rest : List Nat)
    (hv : ∀ x ∈ bs, x < 256) (h : readContainer card bs = some (vals, rest)) :
    bs = containerBytes vals ++ rest ∧ vals.length = card ∧
      isStrictSorted vals = true ∧ (∀ v ∈ vals, v < 65536) ∧ ∀ x ∈ rest, x < 256 := by
  simp only [readContainer] at h
  by_cases hle : card ≤ 4096
  · rw [if_pos hle] at h
    split at h
    · simp at h
    · rename_i vals' rest' heq
      split at h
      · rename_i hs
        simp only [Option.some.injEq, Prod.mk.injEq] at h
        obtain ⟨hvals, hrest⟩ := h
        subst hvals
        subst hrest
        obtain ⟨hbs, hlen, hbound, hrv⟩ := readU16List_sound card bs vals' rest' hv heq
        refine ⟨?_, hlen, hs, hbound, hrv⟩
        rw [containerBytes, if_pos (by omega), hbs]
      · simp at h
  · rw [if_neg hle] at h
    split at h
    · simp at h
    · rename_i chunk rest' heq
      split at h
      · rename_i hl
        simp only [Option.some.injEq, Prod.mk.injEq] at h
        obtain ⟨hvals, hrest⟩ := h
        subst hvals
        subst hrest
        obtain ⟨hbs, hchlen⟩ := readBytesN_sound 8192 bs chunk rest' heq
        have hchv : ∀ x ∈ chunk, x < 256 := fun x hx =>
          hv x (by rw [hbs]; exact List.mem_append.mpr (Or.inl hx))
        have hrv : ∀ x ∈ rest', x < 256 := fun x hx =>
          hv x (by rw [hbs]; exact List.mem_append.mpr (Or.inr hx))
        have hrecon : bitsetBytes (bitsetDecode chunk) = chunk :=
          bitsetBytes_bitsetDecode chunk hchlen hchv
        have hsorted : isStrictSorted (bitsetDecode chunk) = true := by
          apply pairwise_isStrictSorted
          exact (List.pairwise_lt_range 65536).sublist (List.filter_sublist _)
        have hbound : ∀ v ∈ bitsetDecode chunk, v < 65536 := by
          intro v hv2
          simp only [bitsetDecode, List.mem_filter, List.mem_range] at hv2
          exact hv2.1
        refine ⟨?_, hl, hsorted, hbound, hrv⟩
        rw [containerBytes, if_neg (by omega), hrecon, hbs]
      · simp at h

theorem readContainerList_sound (ps : List (Nat × Nat)) (bs : List Nat)
    (cs : List (Nat × List Nat)) (rest : List Nat)
    (hps : ∀ p ∈ ps, 1 ≤ p.2) (hv : ∀ x ∈ bs, x < 256)
    (h : readContainerList ps bs = some (cs, rest)) :
    bs = containersBytes cs ++ rest ∧ headerPairsOf cs = ps ∧
      (∀ kc ∈ cs, kc.2 ≠ [] ∧ isStrictSorted kc.2 = true ∧ ∀ v ∈ kc.2, v < 65536) ∧
      ∀ x ∈ rest, x < 256 := by
  induction ps generalizing bs cs rest with
  | nil =>
    simp only [readContainerList, Option.some.injEq, Prod.mk.injEq] at h
    obtain ⟨hcs, hrest⟩ := h
    subst hcs
    subst hrest
    exact ⟨rfl, rfl, by simp, hv⟩
  | cons p ps ih =>
    obtain ⟨k, card⟩ := p
    simp only [readContainerList] at h
    split at h
    · simp at h
    · rename_i vals bs1 heq
      split at h
      · simp at h
      · rename_i cs' bs2 heq2
        simp only [Option.some.injEq, Prod.mk.injEq] at h
        obtain ⟨hcs, hrest⟩ := h
        subst hcs
        subst hrest
        have hcard : 1 ≤ card := hps (k, card) (by simp)
        obtain ⟨hbs, hlen, hsorted, hbound, hv1⟩ :=
          readContainer_sound card bs vals bs1 hv heq
        obtain ⟨hbs1, hhdr, hprops, hv2⟩ :=
          ih bs1 cs' bs2 (fun q hq => hps q (by simp [hq])) hv1 heq2
        refine ⟨?_, ?_, ?_, hv2⟩
        · rw [hbs, hbs1, containersBytes, List.append_assoc]
        · simp only [headerPairsOf, List.map_cons]
          simp only [headerPairsOf] at hhdr
          rw [hhdr, hlen]
        · intro kc hkc
          rcases List.mem_cons.mp hkc with hkc1 | hkc2
          · subst hkc1
            refine ⟨?_, hsorted, hbound⟩
            have hpos : 0 < vals.length := by omega
            exact List.length_pos.mp hpos
          · exact hprops kc hkc2

theorem readHeaderPairs_sound (cnt : Nat) (bs : List Nat) (ps : List (Nat × Nat))
    (rest : List Nat) (hv : ∀ x ∈ bs, x < 256)
    (h : readHeaderPairs cnt bs = some (ps, rest)) :
    bs = headerPairBytes ps ++ rest ∧ ps.length = cnt ∧
      (∀ p ∈ ps, p.1 < 65536 ∧ 1 ≤ p.2 ∧ p.2 ≤ 65536) ∧ ∀ x ∈ rest, x < 256 := by
  induction cnt generalizing bs ps rest with
  | zero =>
    simp only [readHeaderPairs, Option.some.injEq, Prod.mk.injEq] at h
    obtain ⟨hps2, hrest⟩ := h
    subst hps2
    subst hrest
    exact ⟨rfl, rfl, by simp, hv⟩
  | succ k ih =>
    simp only [readHeaderPairs] at h
    split at h
    · simp at h
    · rename_i key bs1 heq
      split at h
      · simp at h
      · rename_i cm1 bs2 heq2
        split at h
        · simp at h
        · rename_i ps' bs3 heq3
          simp only [Option.some.injEq, Prod.mk.injEq] at h
          obtain ⟨hps2, hrest⟩ := h
          subst hps2
          subst hrest
          obtain ⟨hbs, hklt, hv1⟩ := readU16le_sound bs bs1 key hv heq
          obtain ⟨hbs1, hclt, hv2⟩ := readU16le_sound bs1 bs2 cm1 hv1 heq2
          obtain ⟨hbs2, hlen, hprops, hv3⟩ := ih bs2 ps' bs3 hv2 heq3
          refine ⟨?_, by simp [hlen], ?_, hv3⟩
          · rw [hbs, hbs1, hbs2, headerPairBytes]
            simp only [Nat.add_sub_cancel, List.append_assoc]
          · intro p hp
            rcases List.mem_cons.mp hp with hp1 | hp2
            · subst hp1
              exact ⟨hklt, by omega, by omega⟩
            · exact hprops p hp2

theorem deserializeFrom_sound (bs : List Nat) (r : RoaringBitmap)
    (hv : ∀ x ∈ bs, x < 256) (h : deserializeFrom bs = some r) :
    r.WF ∧ serializeInto r = bs := by
  simp only [deserializeFrom] at h
  split at h
  · simp at h
  · rename_i cookie bs1 h1
    by_cases hck : cookie = 12346
    case neg => rw [if_neg hck] at h; simp at h
    case pos =>
    rw [if_pos hck] at h
    subst hck
    split at h
    · simp at h
    · rename_i n bs2 h2
      split at h
      · simp at h
      · rename_i pairs bs3 h3
        by_cases hks : isStrictSorted (pairs.map Prod.fst) = true
        case neg => rw [if_neg hks] at h; simp at h
        case pos =>
        rw [if_pos hks] at h
        split at h
        · simp at h
        · rename_i offs bs4 h4
          by_cases hoff : offs = offsetsOfCards (8 + 8 * n) (pairs.map Prod.snd)
          case neg => rw [if_neg hoff] at h; simp at h
          case pos =>
          rw [if_pos hoff] at h
          split at h
          · simp at h
          · rename_i cs bs5 h5
            by_cases hend : bs5 = []
            case neg => rw [if_neg hend] at h; simp at h
            case pos =>
            rw [if_pos hend] at h
            subst hend
            simp only [Option.some.injEq] at h
            subst h
            obtain ⟨hbs, hck16, hv1⟩ := readU32le_sound bs bs1 12346 hv h1
            obtain ⟨hbs1, hn32, hv2⟩ := readU32le_sound bs1 bs2 n hv1 h2
            obtain ⟨hbs2, hplen, hpprops, hv3⟩ := readHeaderPairs_sound n bs2 pairs bs3 hv2 h3
            obtain ⟨hbs3, holen, hv4⟩ := readU32List_sound n bs3 offs bs4 hv3 h4
            obtain ⟨hbs4, hhdr, hcprops, hv5⟩ := readContainerList_sound pairs bs4 cs []
              (fun p hp => (hpprops p hp).2.1) hv4 h5
            have hmapfst : cs.map Prod.fst = pairs.map Prod.fst := by
              rw [← hhdr]
              simp [headerPairsOf]
            have hmapsnd : cs.map (fun kc => kc.2.length) = pairs.map Prod.snd := by
              rw [← hhdr]
              simp [headerPairsOf]
            have hncs : cs.length = n := by
              rw [← hplen, ← hhdr]
              simp [headerPairsOf]
            have hWF : RoaringBitmap.WF ⟨cs⟩ := by
              constructor
              · rw [show RoaringBitmap.containers ⟨cs⟩ = cs from rfl, hmapfst]
                exact hks
              · intro kc hkc
                refine ⟨?_, (hcprops kc hkc).1, (hcprops kc hkc).2.1, (hcprops kc hkc).2.2⟩
                have hmemp : (kc.1, kc.2.length) ∈ pairs := by
                  rw [← hhdr]
                  exact List.mem_map.mpr ⟨kc, hkc, rfl⟩
                exact (hpprops _ hmemp).1
            refine ⟨hWF, ?_⟩
            rw [serializeInto]
            rw [show RoaringBitmap.containers ⟨cs⟩ = cs from rfl]
            rw [hncs, descriptiveHeaderBytes, headerPairsOf]
            rw [show cs.map (fun kc => (kc.1, kc.2.length)) = pairs from hhdr]
            rw [hmapsnd, ← hoff]
            rw [List.append_nil] at hbs4
            rw [hbs, hbs1, hbs2, hbs3, hbs4]
            simp [List.append_assoc]

/-- C6: `SuiBitmap` round-trips every well-formed roaring bitmap — in
particular the empty bitmap and the bitmap `{1, 1000, 1000000}` (containers
`(0, [1, 1000])` and `(15, [16960])`) of the witness — through
`serialize_as` then `deserialize_as`, in either serializer mode; and every
byte sequence accepted by `deserialize_as` is exactly the encoding of the
returned bitmap under the roaring on-disk standard, so any byte sequence that
is not a valid encoding is rejected with an error. -/
theorem suiBitmap_roundtrip_and_validity :
    ∀ (b : RoaringBitmap) (bs : List Nat) (hr : Bool),
      (b.WF →
        SuiBitmap.serializeAs b hr = .ok (.vBytes (serializeInto b)) ∧
        SuiBitmap.deserializeAs (.vBytes (serializeInto b)) hr = .ok b) ∧
      ((∀ x ∈ bs, x < 256) → ∀ r, SuiBitmap.deserializeAs (.vBytes bs) hr = .ok r →
        r.WF ∧ serializeInto r = bs) ∧
      ((∀ x ∈ bs, x < 256) → (¬ ∃ b2, RoaringBitmap.WF b2 ∧ serializeInto b2 = bs) →
        ∃ e, SuiBitmap.deserializeAs (.vBytes bs) hr = .error e) := by
  intro b bs hr
  refine ⟨fun hWF => ⟨rfl, ?_⟩, fun hv r hok => ?_, fun hv hnone => ?_⟩
  · simp only [SuiBitmap.deserializeAs, Bytes.deserializeAs,
      deserializeFrom_serializeInto b hWF]
  · simp only [SuiBitmap.deserializeAs, Bytes.deserializeAs] at hok
    split at hok
    · rename_i b2 hd
      simp only [Except.ok.injEq] at hok
      subst hok
      exact deserializeFrom_sound bs b2 hv hd
    · simp at hok
  · cases hd : deserializeFrom bs with
    | some b2 =>
      obtain ⟨hWF2, hser⟩ := deserializeFrom_sound bs b2 hv hd
      exact absurd ⟨b2, hWF2, hser⟩ hnone
    | none =>
      refine ⟨toCustomError (fun x => x) "not a valid roaring bitmap encoding", ?_⟩
      simp only [SuiBitmap.deserializeAs, Bytes.deserializeAs, hd]

theorem suiBitmap_roundtrip_witness :
    SuiBitmap.deserializeAs
        (.vBytes (serializeInto ⟨[(0, [1, 1000]), (15, [16960])]⟩)) true =
      .ok ⟨[(0, [1, 1000]), (15, [16960])]⟩ ∧
    SuiBitmap.deserializeAs (.vBytes (serializeInto ⟨[]⟩)) false = .ok ⟨[]⟩ :=
  ⟨((suiBitmap_roundtrip_and_validity ⟨[(0, [1, 1000]), (15, [16960])]⟩ [] true).1
      (by decide)).2,
   ((suiBitmap_roundtrip_and_validity ⟨[]⟩ [] false).1 (by decide)).2⟩

/-! ## Claim C7: lexer and address lemmas -/

theorem spanIdent_append (tok rest : List Char) (htok : tok.all isIdentChar = true)
    (hrest : rest.head?.all (fun c => !(isIdentChar c)) = true) :
    spanIdent (tok ++ rest) = (tok, rest) := by
  induction tok with
  | nil =>
    cases rest with
    | nil => rfl
    | cons c cs =>
      simp only [Option.all_some, List.head?_cons, Bool.not_eq_true'] at hrest
      simp [spanIdent, hrest]
  | cons c cs ih =>
    simp only [List.all_cons, Bool.and_eq_true] at htok
    simp only [List.cons_append, spanIdent, htok.1, if_true, List.append_eq, ih htok.2]

theorem spanHex_append (tok rest : List Char) (htok : tok.all isHexDigit = true)
    (hrest : rest.head?.all (fun c => !(isHexDigit c)) = true) :
    spanHex (tok ++ rest) = (tok, rest) := by
  induction tok with
  | nil =>
    cases rest with
    | nil => rfl
    | cons c cs =>
      simp only [Option.all_some, List.head?_cons, Bool.not_eq_true'] at hrest
      simp [spanHex, hrest]
  | cons c cs ih =>
    simp only [List.all_cons, Bool.and_eq_true] at htok
    simp only [List.cons_append, spanHex, htok.1, if_true, List.append_eq, ih htok.2]

theorem hexDigitChar_isHex : ∀ d < 16, isHexDigit (hexDigitChar d) = true := by
  decide

theorem hexCharToNat_hexDigitChar : ∀ d < 16, (hexCharToNat (hexDigitChar d)).getD 0 = d := by
  decide

theorem bytesToNibbles_length (bs : List Nat) : (bytesToNibbles bs).length = 2 * bs.length := by
  induction bs with
  | nil => rfl
  | cons b t ih =>
    simp only [bytesToNibbles, List.length_cons, ih]
    omega

theorem bytesToNibbles_lt (bs : List Nat) (h : ∀ b ∈ bs, b < 256) :
    ∀ d ∈ bytesToNibbles bs, d < 16 := by
  induction bs with
  | nil => intro d hd; simp [bytesToNibbles] at hd
  | cons b t ih =>
    intro d hd
    have hb : b < 256 := h b (by simp)
    simp only [bytesToNibbles, List.mem_cons] at hd
    rcases hd with h1 | h2 | h3
    · omega
    · omega
    · exact ih (fun x hx => h x (by simp [hx])) d h3

theorem nibblePairs_bytesToNibbles (bs : List Nat) (h : ∀ b ∈ bs, b < 256) :
    nibblePairs (bytesToNibbles bs) = bs := by
  induction bs with
  | nil => rfl
  | cons b t ih =>
    have hb : b < 256 := h b (by simp)
    simp only [bytesToNibbles, nibblePairs, ih (fun x hx => h x (by simp [hx]))]
    congr 1
    omega

theorem shortHexChars_ne_nil (addr : List Nat) : shortHexChars addr ≠ [] := by
  rw [shortHexChars]
  split
  · simp
  · rename_i hne
    simp [hne]

theorem shortHexChars_hex (addr : List Nat) (h : ∀ b ∈ addr, b < 256) :
    (shortHexChars addr).all isHexDigit = true := by
  rw [shortHexChars]
  split
  · decide
  · rename_i hne
    rw [List.all_eq_true]
    intro c hc
    obtain ⟨d, hd, rfl⟩ := List.mem_map.mp hc
    have hdlt : d < 16 := by
      have hdmem : d ∈ bytesToNibbles addr := (List.dropWhile_sublist _).mem hd
      exact bytesToNibbles_lt addr h d hdmem
    exact hexDigitChar_isHex d hdlt

theorem parseAddr_shortHexChars (addr : List Nat) (hWF : addrWFB addr = true) :
    parseAddr (shortHexChars addr) = some addr := by
  simp only [addrWFB, Bool.and_eq_true, decide_eq_true_eq, List.all_eq_true] at hWF
  obtain ⟨hlen, hbytes⟩ := hWF
  have hb : ∀ b ∈ addr, b < 256 := hbytes
  have hnfull_len : (bytesToNibbles addr).length = 64 := by
    rw [bytesToNibbles_length, hlen]
  have hsplit := List.takeWhile_append_dropWhile (fun d => decide (d = 0)) (bytesToNibbles addr)
  rw [shortHexChars]
  split
  · rename_i hnil
    have hallzero : ∀ x ∈ bytesToNibbles addr, x = 0 := by
      intro x hx
      exact of_decide_eq_true (List.dropWhile_eq_nil_iff.mp hnil x hx)
    have hfull : bytesToNibbles addr = List.replicate 64 0 :=
      List.eq_replicate_iff.mpr ⟨hnfull_len, hallzero⟩
    rw [parseAddr, if_neg (by simp)]
    have hmap0 : (['0'].map (fun c => (hexCharToNat c).getD 0)) = [0] := by decide
    simp only [hmap0, List.length_cons, List.length_nil]
    have hrep : List.replicate (64 - 1) (0 : Nat) ++ [0] = List.replicate 64 0 := by decide
    rw [show (64 - (0 + 1) : Nat) = 64 - 1 from by omega, hrep, ← hfull,
      nibblePairs_bytesToNibbles addr hb]
  · rename_i hne
    have hsub : ∀ x ∈ (bytesToNibbles addr).dropWhile (fun d => decide (d = 0)),
        x ∈ bytesToNibbles addr := fun x hx =>
      (List.dropWhile_sublist (l := bytesToNibbles addr)
        (p := fun d => decide (d = 0))).mem hx
    have hlt : ∀ x ∈ (bytesToNibbles addr).dropWhile (fun d => decide (d = 0)), x < 16 :=
      fun x hx => bytesToNibbles_lt addr hb x (hsub x hx)
    have hmapback : (((bytesToNibbles addr).dropWhile (fun d => decide (d = 0))).map
        hexDigitChar).map (fun c => (hexCharToNat c).getD 0) =
        (bytesToNibbles addr).dropWhile (fun d => decide (d = 0)) := by
      rw [List.map_map]
      have hcong : ∀ x ∈ (bytesToNibbles addr).dropWhile (fun d => decide (d = 0)),
          ((fun c => (hexCharToNat c).getD 0) ∘ hexDigitChar) x = id x := by
        intro x hx
        simp only [Function.comp_apply, id_eq]
        exact hexCharToNat_hexDigitChar x (hlt x hx)
      rw [List.map_congr_left hcong, List.map_id]
    have hlen2 : ((bytesToNibbles addr).dropWhile (fun d => decide (d = 0))).length ≤ 64 := by
      have := (List.dropWhile_sublist (l := bytesToNibbles addr)
        (p := fun d => decide (d = 0))).length_le
      omega
    rw [parseAddr, if_neg (by simp [hne]; omega)]
    simp only [hmapback, List.length_map]
    have htwlen : ((bytesToNibbles addr).takeWhile (fun d => decide (d = 0))).length +
        ((bytesToNibbles addr).dropWhile (fun d => decide (d = 0))).length = 64 := by
      have hl := congrArg List.length hsplit
      simp only [List.length_append] at hl
      omega
    have htw : (bytesToNibbles addr).takeWhile (fun d => decide (d = 0)) =
        List.replicate (((bytesToNibbles addr).takeWhile
          (fun d => decide (d = 0))).length) 0 := by
      apply List.eq_replicate_iff.mpr
      refine ⟨rfl, ?_⟩
      intro b hbmem
      exact of_decide_eq_true (List.mem_takeWhile_imp (p := fun d => decide (d = 0)) hbmem)
    have hpad : List.replicate
        (64 - ((bytesToNibbles addr).dropWhile (fun d => decide (d = 0))).length) (0 : Nat) ++
        (bytesToNibbles addr).dropWhile (fun d => decide (d = 0)) = bytesToNibbles addr := by
      rw [show 64 - ((bytesToNibbles addr).dropWhile (fun d => decide (d = 0))).length =
        ((bytesToNibbles addr).takeWhile (fun d => decide (d = 0))).length from by omega]
      rw [← htw]
      exact hsplit
    rw [hpad, nibblePairs_bytesToNibbles addr hb]

/-! ## Claim C7: size bounds -/

theorem tagSize_pos (t : TypeTag) : 1 ≤ tagSize t := by
  cases t <;> simp [tagSize]

theorem structSize_pos (s : StructTag) : 1 ≤ structSize s := by
  cases s <;> simp [structSize]

theorem argsSize_pos (ts : TypeTagList) : 1 ≤ argsSize ts := by
  cases ts <;> simp [argsSize] <;> omega

mutual
theorem tagSize_le_printLen (t : TypeTag) : tagSize t ≤ (printTypeTag t).length := by
  cases t with
  | vector t' =>
    have := tagSize_le_printLen t'
    simp only [tagSize, printTypeTag, List.length_append, List.length_cons, List.length_nil]
    omega
  | struct s =>
    have := structSize_le_printLen s
    simp only [tagSize, printTypeTag]
    omega
  | bool => simp [tagSize, printTypeTag]
  | u8 => simp [tagSize, printTypeTag]
  | u16 => simp [tagSize, printTypeTag]
  | u32 => simp [tagSize, printTypeTag]
  | u64 => simp [tagSize, printTypeTag]
  | u128 => simp [tagSize, printTypeTag]
  | u256 => simp [tagSize, printTypeTag]
  | address => simp [tagSize, printTypeTag]
  | signer => simp [tagSize, printTypeTag]
theorem structSize_le_printLen (s : StructTag) : structSize s + 1 ≤ (printStructTag s).length := by
  cases s with
  | mk addr m n args =>
    have h1 := argsSize_le_printArgsLen args
    have h2 : 1 ≤ (shortHexChars addr).length :=
      List.length_pos.mpr (shortHexChars_ne_nil addr)
    simp only [structSize, printStructTag, List.length_append, List.length_cons,
      List.length_nil]
    omega
theorem argsSize_le_printArgsLen (ts : TypeTagList) :
    argsSize ts ≤ (printTypeArgs ts).length + 1 := by
  cases ts with
  | nil => simp [argsSize, printTypeArgs]
  | cons t ts' =>
    have h1 := tagSize_le_printLen t
    have h2 := argsSize_le_printRestLen ts'
    simp only [argsSize, printTypeArgs, List.length_append, List.length_cons, List.length_nil]
    omega
theorem argsSize_le_printRestLen (ts : TypeTagList) :
    argsSize ts ≤ (printTypeArgsRest ts).length + 1 := by
  cases ts with
  | nil => simp [argsSize, printTypeArgsRest]
  | cons t ts' =>
    have h1 := tagSize_le_printLen t
    have h2 := argsSize_le_printRestLen ts'
    simp only [argsSize, printTypeArgsRest, List.length_append, List.length_cons,
      List.length_nil]
    omega
end

/-! ## Claim C7: parser completeness on canonical renderings -/

theorem headNotIdentCons (c : Char) (X : List Char) (h : isIdentChar c = false) :
    ((c :: X).head?.all (fun d => !(isIdentChar d))) = true := by
  simp [h]

theorem headNotHexCons (c : Char) (X : List Char) (h : isHexDigit c = false) :
    ((c :: X).head?.all (fun d => !(isHexDigit d))) = true := by
  simp [h]

mutual
theorem parseTypeTag_print (t : TypeTag) (fuel : Nat) (rest : List Char)
    (hWF : TypeTagWF t = true) (hfuel : tagSize t < fuel)
    (hrId : rest.head?.all (fun c => !(isIdentChar c)) = true)
    (hrLt : rest.head? ≠ some '<') :
    parseTypeTag fuel (printTypeTag t ++ rest) = some (t, rest) := by
  cases fuel with
  | zero =>
    have := tagSize_pos t
    omega
  | succ f =>
    cases t with
    | bool =>
      have hspan : spanIdent ('b' :: 'o' :: 'o' :: 'l' :: rest) = ("bool".data, rest) :=
        spanIdent_append "bool".data rest (by decide) hrId
      simp only [printTypeTag, parseTypeTag]
      rw [if_neg (by rw [show ("bool".data ++ rest).take 2 = ['b', 'o'] from rfl]; decide)]
      simp +decide [hspan]
    | u8 =>
      have hspan : spanIdent ('u' :: '8' :: rest) = ("u8".data, rest) :=
        spanIdent_append "u8".data rest (by decide) hrId
      simp only [printTypeTag, parseTypeTag]
      rw [if_neg (by rw [show ("u8".data ++ rest).take 2 = ['u', '8'] from rfl]; decide)]
      simp +decide [hspan]
    | u16 =>
      have hspan : spanIdent ('u' :: '1' :: '6' :: rest) = ("u16".data, rest) :=
        spanIdent_append "u16".data rest (by decide) hrId
      simp only [printTypeTag, parseTypeTag]
      rw [if_neg (by rw [show ("u16".data ++ rest).take 2 = ['u', '1'] from rfl]; decide)]
      simp +decide [hspan]
    | u32 =>
      have hspan : spanIdent ('u' :: '3' :: '2' :: rest) = ("u32".data, rest) :=
        spanIdent_append "u32".data rest (by decide) hrId
      simp only [printTypeTag, parseTypeTag]
      rw [if_neg (by rw [show ("u32".data ++ rest).take 2 = ['u', '3'] from rfl]; decide)]
      simp +decide [hspan]
    | u64 =>
      have hspan : spanIdent ('u' :: '6' :: '4' :: rest) = ("u64".data, rest) :=
        spanIdent_append "u64".data rest (by decide) hrId
      simp only [printTypeTag, parseTypeTag]
      rw [if_neg (by rw [show ("u64".data ++ rest).take 2 = ['u', '6'] from rfl]; decide)]
      simp +decide [hspan]
    | u128 =>
      have hspan : spanIdent ('u' :: '1' :: '2' :: '8' :: rest) = ("u128".data, rest) :=
        spanIdent_append "u128".data rest (by decide) hrId
      simp only [printTypeTag, parseTypeTag]
      rw [if_neg (by rw [show ("u128".data ++ rest).take 2 = ['u', '1'] from rfl]; decide)]
      simp +decide [hspan]
    | u256 =>
      have hspan : spanIdent ('u' :: '2' :: '5' :: '6' :: rest) = ("u256".data, rest) :=
        spanIdent_append "u256".data rest (by decide) hrId
      simp only [printTypeTag, parseTypeTag]
      rw [if_neg (by rw [show ("u256".data ++ rest).take 2 = ['u', '2'] from rfl]; decide)]
      simp +decide [hspan]
    | address =>
      have hspan : spanIdent ('a' :: 'd' :: 'd' :: 'r' :: 'e' :: 's' :: 's' :: rest) = ("address".data, rest) :=
        spanIdent_append "address".data rest (by decide) hrId
      simp only [printTypeTag, parseTypeTag]
      rw [if_neg (by rw [show ("address".data ++ rest).take 2 = ['a', 'd'] from rfl]; decide)]
      simp +decide [hspan]
    | signer =>
      have hspan : spanIdent ('s' :: 'i' :: 'g' :: 'n' :: 'e' :: 'r' :: rest) = ("signer".data, rest) :=
        spanIdent_append "signer".data rest (by decide) hrId
      simp only [printTypeTag, parseTypeTag]
      rw [if_neg (by rw [show ("signer".data ++ rest).take 2 = ['s', 'i'] from rfl]; decide)]
      simp +decide [hspan]
    | vector t' =>
      have hWF2 : TypeTagWF t' = true := by simpa [TypeTagWF] using hWF
      have hf2 : tagSize t' < f := by
        simp only [tagSize] at hfuel
        omega
      have hsub := parseTypeTag_print t' f ('>' :: rest) hWF2 hf2
        (headNotIdentCons '>' rest (by decide))
        (by intro h; exact absurd (Option.some.inj h) (by decide))
      have harr : printTypeTag (.vector t') ++ rest =
          "vector".data ++ ('<' :: (printTypeTag t' ++ ('>' :: rest))) := by
        simp [printTypeTag, List.append_assoc]
      have hspan : spanIdent ('v' :: 'e' :: 'c' :: 't' :: 'o' :: 'r' :: '<' ::
          (printTypeTag t' ++ '>' :: rest)) =
          ("vector".data, '<' :: (printTypeTag t' ++ '>' :: rest)) :=
        spanIdent_append "vector".data ('<' :: (printTypeTag t' ++ ('>' :: rest)))
          (by decide) (headNotIdentCons '<' _ (by decide))
      rw [harr]
      simp only [parseTypeTag]
      rw [if_neg (by
        rw [show ("vector".data ++ ('<' :: (printTypeTag t' ++ ('>' :: rest)))).take 2 =
          ['v', 'e'] from rfl]
        decide)]
      simp +decide [hspan, hsub]
    | struct s =>
      have hWF2 : StructTagWF s = true := by simpa [TypeTagWF] using hWF
      have hf2 : structSize s < f := by
        simp only [tagSize] at hfuel
        omega
      have hsub := parseStructTag_print s f rest hWF2 hf2 hrId hrLt
      have htake : (printTypeTag (.struct s) ++ rest).take 2 = ['0', 'x'] := by
        cases s with
        | mk addr m n args => rfl
      simp only [parseTypeTag]
      rw [if_pos htake]
      simp only [printTypeTag]
      rw [hsub]
termination_by tagSize t
decreasing_by
all_goals simp_wf
all_goals subst_vars
all_goals first
  | omega
  | (simp only [tagSize, structSize, argsSize]; omega)
  | (simp [tagSize, structSize, argsSize] <;> omega)
theorem parseStructTag_print (s : StructTag) (fuel : Nat) (rest : List Char)
    (hWF : StructTagWF s = true) (hfuel : structSize s < fuel)
    (hrId : rest.head?.all (fun c => !(isIdentChar c)) = true)
    (hrLt : rest.head? ≠ some '<') :
    parseStructTag fuel (printStructTag s ++ rest) = some (s, rest) := by
  cases fuel with
  | zero =>
    have := structSize_pos s
    omega
  | succ f =>
    cases s with
    | mk addr m n args =>
      simp only [StructTagWF, Bool.and_eq_true] at hWF
      obtain ⟨⟨⟨haddr, hm⟩, hn⟩, hargs⟩ := hWF
      have hmall : m.all isIdentChar = true := by
        cases m with
        | nil => simp [identWFB] at hm
        | cons c cs =>
          simp only [identWFB, Bool.and_eq_true] at hm
          exact hm.2
      have hnall : n.all isIdentChar = true := by
        cases n with
        | nil => simp [identWFB] at hn
        | cons c cs =>
          simp only [identWFB, Bool.and_eq_true] at hn
          exact hn.2
      have hbytes : ∀ b ∈ addr, b < 256 := by
        simp only [addrWFB, Bool.and_eq_true, List.all_eq_true, decide_eq_true_eq] at haddr
        exact haddr.2
      have harr : printStructTag (.mk addr m n args) ++ rest =
          '0' :: 'x' :: (shortHexChars addr ++ (':' :: ':' ::
            (m ++ (':' :: ':' :: (n ++ (printTypeArgs args ++ rest)))))) := by
        simp [printStructTag, List.append_assoc]
      have hspanhex := spanHex_append (shortHexChars addr)
        (':' :: ':' :: (m ++ (':' :: ':' :: (n ++ (printTypeArgs args ++ rest)))))
        (shortHexChars_hex addr hbytes) (headNotHexCons ':' _ (by decide))
      have hpaddr := parseAddr_shortHexChars addr haddr
      have hspanm := spanIdent_append m
        (':' :: ':' :: (n ++ (printTypeArgs args ++ rest))) hmall
        (headNotIdentCons ':' _ (by decide))
      have hnrest : (printTypeArgs args ++ rest).head?.all (fun c => !(isIdentChar c)) = true := by
        cases args with
        | nil => simpa [printTypeArgs] using hrId
        | cons t' ts' => simp +decide [printTypeArgs]
      have hspann := spanIdent_append n (printTypeArgs args ++ rest) hnall hnrest
      rw [harr]
      simp only [parseStructTag]
      simp only [hspanhex, hpaddr, hspanm, hm, if_true, hspann, hn]
      cases args with
      | nil =>
        simp only [printTypeArgs, List.nil_append]
        rw [if_neg (by simpa using hrLt)]
      | cons t' ts' =>
        simp only [TypeTagListWF, Bool.and_eq_true] at hargs
        have harr2 : printTypeArgs (.cons t' ts') ++ rest =
            '<' :: (printTypeTag t' ++ (printTypeArgsRest ts' ++ ('>' :: rest))) := by
          simp [printTypeArgs, List.append_assoc]
        have hf2 : argsSize (.cons t' ts') < f := by
          simp only [structSize] at hfuel
          omega
        have hsub := parseTypeArgs_print t' ts' f rest hargs.1 hargs.2 hf2 hrId hrLt
        rw [harr2]
        simp only [List.head?_cons, Option.some.injEq, if_pos rfl, List.tail_cons]
        rw [hsub]
        simp
termination_by structSize s
decreasing_by
all_goals simp_wf
all_goals subst_vars
all_goals first
  | omega
  | (simp only [tagSize, structSize, argsSize]; omega)
  | (simp [tagSize, structSize, argsSize] <;> omega)
theorem parseTypeArgs_print (t : TypeTag) (ts : TypeTagList) (fuel : Nat) (rest : List Char)
    (hWFt : TypeTagWF t = true) (hWFts : TypeTagListWF ts = true)
    (hfuel : argsSize (.cons t ts) < fuel)
    (hrId : rest.head?.all (fun c => !(isIdentChar c)) = true)
    (hrLt : rest.head? ≠ some '<') :
    parseTypeArgs fuel (printTypeTag t ++ (printTypeArgsRest ts ++ ('>' :: rest))) =
      some (.cons t ts, rest) := by
  cases fuel with
  | zero =>
    have := argsSize_pos (.cons t ts)
    omega
  | succ f =>
    have hpos1 := tagSize_pos t
    have hpos2 := argsSize_pos ts
    simp only [argsSize] at hfuel
    have hXid : (printTypeArgsRest ts ++ ('>' :: rest)).head?.all
        (fun c => !(isIdentChar c)) = true := by
      cases ts <;> simp +decide [printTypeArgsRest]
    have hXlt : (printTypeArgsRest ts ++ ('>' :: rest)).head? ≠ some '<' := by
      cases ts <;> simp +decide [printTypeArgsRest]
    have h1 := parseTypeTag_print t f (printTypeArgsRest ts ++ ('>' :: rest)) hWFt
      (by omega) hXid hXlt
    have h2 := parseTypeArgsRest_print ts f rest hWFts (by omega) hrId hrLt
    simp only [parseTypeArgs, h1, h2]
termination_by argsSize (TypeTagList.cons t ts)
decreasing_by
all_goals simp_wf
all_goals subst_vars
all_goals first
  | omega
  | (simp only [tagSize, structSize, argsSize]; omega)
  | (simp [tagSize, structSize, argsSize] <;> omega)
theorem parseTypeArgsRest_print (ts : TypeTagList) (fuel : Nat) (rest : List Char)
    (hWF : TypeTagListWF ts = true) (hfuel : argsSize ts < fuel)
    (hrId : rest.head?.all (fun c => !(isIdentChar c)) = true)
    (hrLt : rest.head? ≠ some '<') :
    parseTypeArgsRest fuel (printTypeArgsRest ts ++ ('>' :: rest)) = some (ts, rest) := by
  cases fuel with
  | zero =>
    have := argsSize_pos ts
    omega
  | succ f =>
    cases ts with
    | nil => simp [printTypeArgsRest, parseTypeArgsRest]
    | cons t' ts' =>
      simp only [TypeTagListWF, Bool.and_eq_true] at hWF
      have hpos1 := tagSize_pos t'
      have hpos2 := argsSize_pos ts'
      simp only [argsSize] at hfuel
      have hXid : (printTypeArgsRest ts' ++ ('>' :: rest)).head?.all
          (fun c => !(isIdentChar c)) = true := by
        cases ts' <;> simp +decide [printTypeArgsRest]
      have hXlt : (printTypeArgsRest ts' ++ ('>' :: rest)).head? ≠ some '<' := by
        cases ts' <;> simp +decide [printTypeArgsRest]
      have h1 := parseTypeTag_print t' f (printTypeArgsRest ts' ++ ('>' :: rest)) hWF.1
        (by omega) hXid hXlt
      have h2 := parseTypeArgsRest_print ts' f rest hWF.2 (by omega) hrId hrLt
      have harr : printTypeArgsRest (.cons t' ts') ++ ('>' :: rest) =
          ',' :: ' ' :: (printTypeTag t' ++ (printTypeArgsRest ts' ++ ('>' :: rest))) := by
        simp [printTypeArgsRest, List.append_assoc]
      rw [harr]
      simp only [parseTypeArgsRest, h1, h2]
termination_by argsSize ts
decreasing_by
all_goals simp_wf
all_goals subst_vars
all_goals first
  | omega
  | (simp only [tagSize, structSize, argsSize]; omega)
  | (simp [tagSize, structSize, argsSize] <;> omega)
end

theorem parseSuiTypeTag_print (t : TypeTag) (hWF : TypeTagWF t = true) :
    parseSuiTypeTag (String.mk (printTypeTag t)) = .ok t := by
  have h := parseTypeTag_print t ((printTypeTag t).length + 1) [] hWF
    (by have := tagSize_le_printLen t; omega) (by decide) (by simp)
  rw [List.append_nil] at h
  simp only [parseSuiTypeTag, h]

theorem parseSuiStructTag_print (s : StructTag) (hWF : StructTagWF s = true) :
    parseSuiStructTag (String.mk (printStructTag s)) = .ok s := by
  have h := parseStructTag_print s ((printStructTag s).length + 1) [] hWF
    (by have := structSize_le_printLen s; omega) (by decide) (by simp)
  rw [List.append_nil] at h
  simp only [parseSuiStructTag, h]

/-- C7: for every well-formed structured type identifier value (a `TypeTag` or
a `StructTag`, well-formedness capturing the Rust type invariants: validated
identifiers and a 32-byte address), deserializing the string produced by
`SuiTypeTag::serialize_as` / `SuiStructTag::serialize_as` through the
corresponding `deserialize_as` yields the original value, in either mode; and
any string the grammar parser rejects makes `deserialize_as` fail with that
parser's error, in either mode. -/
theorem sui_tag_string_roundtrip :
    (∀ (t : TypeTag) (hr : Bool), TypeTagWF t = true →
      (SuiTypeTag.serializeAs t hr).bind (fun v => SuiTypeTag.deserializeAs v hr) = .ok t) ∧
    (∀ (s : StructTag) (hr : Bool), StructTagWF s = true →
      (SuiStructTag.serializeAs s hr).bind (fun v => SuiStructTag.deserializeAs v hr) =
        .ok s) ∧
    (∀ (str : String) (hr : Bool) (e : String), parseSuiTypeTag str = .error e →
      SuiTypeTag.deserializeAs (.vStr str) hr = .error e) ∧
    (∀ (str : String) (hr : Bool) (e : String), parseSuiStructTag str = .error e →
      SuiStructTag.deserializeAs (.vStr str) hr = .error e) := by
  refine ⟨?_, ?_, ?_, ?_⟩
  · intro t hr hWF
    have h := parseSuiTypeTag_print t hWF
    simp only [SuiTypeTag.serializeAs, serializeStr, Except.bind, SuiTypeTag.deserializeAs,
      deserializeStr, h]
  · intro s hr hWF
    have h := parseSuiStructTag_print s hWF
    simp only [SuiStructTag.serializeAs, serializeStr, Except.bind, SuiStructTag.deserializeAs,
      deserializeStr, h]
  · intro str hr e he
    simp only [SuiTypeTag.deserializeAs, deserializeStr, he]
  · intro str hr e he
    simp only [SuiStructTag.deserializeAs, deserializeStr, he]

theorem sui_tag_string_roundtrip_witness :
    ((SuiTypeTag.serializeAs (.vector .u8) true).bind
      (fun v => SuiTypeTag.deserializeAs v true) = .ok (.vector .u8)) ∧
    ((SuiStructTag.serializeAs
        (.mk (List.replicate 31 0 ++ [2]) "coin".data "Coin".data
          (.cons (.struct (.mk (List.replicate 31 0 ++ [2]) "sui".data "SUI".data .nil))
            .nil)) false).bind
      (fun v => SuiStructTag.deserializeAs v false) =
      .ok (.mk (List.replicate 31 0 ++ [2]) "coin".data "Coin".data
        (.cons (.struct (.mk (List.replicate 31 0 ++ [2]) "sui".data "SUI".data .nil))
          .nil))) ∧
    SuiTypeTag.deserializeAs (.vStr "vector<u64") true =
      .error "unexpected token or end of input in type tag" ∧
    SuiStructTag.deserializeAs (.vStr "0x1::a::b<u64") true =
      .error "unexpected token or end of input in struct tag" :=
  ⟨sui_tag_string_roundtrip.1 (.vector .u8) true (by decide),
   sui_tag_string_roundtrip.2.1
     (.mk (List.replicate 31 0 ++ [2]) "coin".data "Coin".data
       (.cons (.struct (.mk (List.replicate 31 0 ++ [2]) "sui".data "SUI".data .nil))
         .nil)) false (by decide),
   sui_tag_string_roundtrip.2.2.1 "vector<u64" true _ (by decide),
   sui_tag_string_roundtrip.2.2.2 "0x1::a::b<u64" true _ (by decide)⟩
